import Mathlib

/-!
Shallow embedding of the polyphonic synthesizer voice engine in
`src/hooks/useAudio.ts` (Harmony-Playground).

The engine's mutable refs become an explicit `EngineState`; browser
`setTimeout` timers become records in a pending-timer list, and a
`fireTimer` step models the event loop invoking a timer callback that has
not been cancelled.  Voices are kept in an arena (`arena : List Voice`,
index = creation order) mirroring JS object identity; the `active` map
(`activeVoicesRef`, a JS `Map` keyed by MIDI note, iterated in insertion
order) becomes an insertion-ordered association list of (note, voiceId).
Rationals stand in for JS doubles: every numeric literal of the source is
exactly representable.  String fields that are never branched on
(`noteName`, log `message`) are omitted, except that the numeric content
of the STOP_ALL message (the pre-call active count) is kept as
`messageCount`.  Web-Audio node objects themselves are not modelled; the
automation the engine schedules on them is recorded as `Ramp` values, and
the per-voice oscillator-bank construction is modelled separately by
`buildOscs` below.
-/

/-- Events of `LogEntry.event` in useAudio.ts. -/
inductive LogEvent where
  | noteOn
  | noteOff
  | voiceSteal
  | voiceRelease
  | stopAllEvt
deriving DecidableEq

/-- Projection of a Voice captured by `captureVoiceSnapshot` (useAudio.ts lines
179-219); only the fields the claims mention are kept. -/
structure VoiceSnapshot where
  midiNote : ℕ
  age : ℚ
  released : Bool
deriving DecidableEq

/-- One entry of the diagnostics ring (`LogEntry`, useAudio.ts lines 22-33). -/
structure LogEntry where
  timestamp : ℚ
  event : LogEvent
  midiNote : Option ℕ
  messageCount : Option ℕ
  activeVoiceCount : ℕ
  immediate : List VoiceSnapshot
  delayed : Option (List VoiceSnapshot)
  delayedCaptureTimeoutId : Option ℕ
deriving DecidableEq

/-- The bookkeeping fields of a `Voice` (useAudio.ts lines 58-70); the audio
graph handles are not modelled.  `note` records the map key the voice was
created under (the closure argument `midiNote` in the source). -/
structure Voice where
  note : ℕ
  startTime : ℚ
  released : Bool
  autoStopId : Option ℕ
  cleanupTimeoutId : Option ℕ
  releaseSeconds : ℚ
deriving DecidableEq

/-- What a pending `setTimeout` callback will do when it fires: the auto-release
safety net (lines 602-606), the post-release cleanup (lines 357-399), or a
delayed log capture (lines 245-256, identified by its own timer id). -/
inductive TimerPayload where
  | autoStop (note vid : ℕ)
  | cleanup (note vid : ℕ)
  | delayedCapture
deriving DecidableEq

/-- A scheduled timer: its `window.setTimeout` id, its delay in ms, and its
callback payload. -/
structure Timer where
  id : ℕ
  delayMs : ℚ
  payload : TimerPayload
deriving DecidableEq

/-- Parameter automation scheduled on the audio graph; only the release-path
ramps (lines 347-354) and the attack ramp (lines 575-577) are recorded. -/
inductive Ramp where
  | gainRelease (vid : ℕ) (fromTime toTime : ℚ)
  | filterRelease (vid : ℕ) (fromTime toTime : ℚ)
  | attack (vid : ℕ) (fromTime toTime peak : ℚ)
deriving DecidableEq

/-- The preset record (`InstrumentPreset`, lines 72-89); optional fields that
the piano preset leaves unset are omitted. -/
structure InstrumentPreset where
  harmonics : List ℚ
  attack : ℚ
  decay : ℚ
  sustain : ℚ
  release : ℚ
  filterCutoff : ℚ
  filterQ : ℚ
  filterEnvelope : ℚ
  vibratoRate : ℚ
  vibratoDepth : ℚ
  detuneSpread : ℚ
  stereoSpread : ℚ
deriving DecidableEq

/-- The only preset of the simplified build (`INSTRUMENT_PRESETS.piano`,
lines 116-132). -/
def piano : InstrumentPreset :=
  { harmonics := [1, 1/2, 7/20, 3/20, 2/25]
    attack := 1/200
    decay := 4/5
    sustain := 1/5
    release := 6/5
    filterCutoff := 5000
    filterQ := 7/10
    filterEnvelope := 3/5
    vibratoRate := 0
    vibratoDepth := 0
    detuneSpread := 4
    stereoSpread := 1/4 }

/-- `MAX_POLYPHONY` (line 135). -/
def MAX_POLYPHONY : ℕ := 24

/-- The engine's mutable refs gathered into one state record.  `initialized`
stands for `audioContextRef.current !== null` (and with it `masterGainRef`
etc., which are all assigned together in `initAudio`).  `ctxTime` is
`ctx.currentTime` in seconds, `nowMs` is `performance.now()`;  both advance
only through the explicit `advanceTime` step. -/
structure EngineState where
  initialized : Bool
  ctxTime : ℚ
  nowMs : ℚ
  arena : List Voice
  active : List (ℕ × ℕ)
  logs : List LogEntry
  nextTimerId : ℕ
  pending : List Timer
  delayedCaptureTimeouts : List ℕ
  ramps : List Ramp
  reverbMix : ℚ
  volume : ℚ
  dryGainValue : Option ℚ
  reverbGainValue : Option ℚ
  masterGainValue : Option ℚ
deriving DecidableEq

/-- The state before any call: all refs null/empty, `reverbMixRef = 0.2`,
`volumeRef = 1.0` (lines 137-152). -/
def initialState : EngineState :=
  { initialized := false
    ctxTime := 0
    nowMs := 0
    arena := []
    active := []
    logs := []
    nextTimerId := 0
    pending := []
    delayedCaptureTimeouts := []
    ramps := []
    reverbMix := 1/5
    volume := 1
    dryGainValue := none
    reverbGainValue := none
    masterGainValue := none }

/-- `Map.get` on the active-voice map: first (only) entry with this key. -/
def lookupA (l : List (ℕ × ℕ)) (n : ℕ) : Option ℕ :=
  match l with
  | [] => none
  | (k, v) :: rest => if k = n then some v else lookupA rest n

/-- `Map.set`: replace in place if the key is present (JS Maps keep the
original insertion position), else append. -/
def setKey (l : List (ℕ × ℕ)) (n v : ℕ) : List (ℕ × ℕ) :=
  match l with
  | [] => [(n, v)]
  | (k, w) :: rest => if k = n then (n, v) :: rest else (k, w) :: setKey rest n v

/-- `Map.delete`: remove the entry with this key. -/
def deleteKey (l : List (ℕ × ℕ)) (n : ℕ) : List (ℕ × ℕ) :=
  match l with
  | [] => []
  | (k, w) :: rest => if k = n then rest else (k, w) :: deleteKey rest n

/-- Update the arena record of voice `vid` in place (JS mutation through the
shared object reference). -/
def updateVoice (ar : List Voice) (vid : ℕ) (f : Voice → Voice) : List Voice :=
  match ar[vid]? with
  | some v => ar.set vid (f v)
  | none => ar

/-- `captureVoiceSnapshot` (lines 179-219), restricted to the modelled
fields: `age = ctx.currentTime - voice.startTime`. -/
def captureVoiceSnapshot (ctxTime : ℚ) (midiNote : ℕ) (v : Voice) : VoiceSnapshot :=
  { midiNote := midiNote, age := ctxTime - v.startTime, released := v.released }

/-- The `activeVoicesRef.current.forEach` snapshot loop used by both the
immediate and the delayed capture in `addLog`. -/
def snapshotAll (s : EngineState) : List VoiceSnapshot :=
  s.active.filterMap fun pr => (s.arena[pr.2]?).map (captureVoiceSnapshot s.ctxTime pr.1)

/-- The `LogEntry` built by `addLog` (lines 236-242, with the timeout id
assigned at line 258): immediate snapshot of the current state, no delayed
snapshot yet. -/
def newLogEntry (s : EngineState) (ev : LogEvent) (mn : Option ℕ) (mc : Option ℕ) : LogEntry :=
  { timestamp := s.nowMs
    event := ev
    midiNote := mn
    messageCount := mc
    activeVoiceCount := s.active.length
    immediate := snapshotAll s
    delayed := none
    delayedCaptureTimeoutId := some s.nextTimerId }

/-- The 50ms delayed-capture timer scheduled by `addLog` (lines 245-256). -/
def dcTimer (s : EngineState) : Timer :=
  { id := s.nextTimerId, delayMs := 50, payload := TimerPayload.delayedCapture }

/-- `addLog` (lines 224-271): no-op without an audio context; otherwise capture
the immediate snapshot, schedule the 50ms delayed-capture timer and record its
id both on the entry and in `delayedCaptureTimeoutsRef`, push the entry, and
if the ring now exceeds 1000 entries, shift off the oldest and cancel its
delayed-capture timer. -/
def addLog (s : EngineState) (ev : LogEvent) (mn : Option ℕ) (mc : Option ℕ) : EngineState :=
  if s.initialized = false then s else
  let tid := s.nextTimerId
  let entry := newLogEntry s ev mn mc
  let s1 := { s with
    nextTimerId := tid + 1
    pending := s.pending ++ [dcTimer s]
    delayedCaptureTimeouts := s.delayedCaptureTimeouts ++ [tid] }
  let logs1 := s1.logs ++ [entry]
  if 1000 < logs1.length then
    match logs1 with
    | [] => { s1 with logs := logs1 }
    | removed :: rest =>
      match removed.delayedCaptureTimeoutId with
      | some rid =>
        { s1 with
          logs := rest
          pending := s1.pending.filter fun (t : Timer) => t.id ≠ rid
          delayedCaptureTimeouts := s1.delayedCaptureTimeouts.filter fun i => i ≠ rid }
      | none => { s1 with logs := rest }
  else { s1 with logs := logs1 }

/-- `releaseVoice` (lines 318-403).  No-op when there is no audio context or
the voice is already released.  Otherwise: set `released`, log VOICE_RELEASE
(the snapshot sees the flag already set), cancel the auto-stop timer, clear
every timeout id held in `delayedCaptureTimeoutsRef` (the source calls
`clearTimeout` on each but does not purge the ref map), schedule the
release-path gain and filter ramps, and schedule the cleanup timer at
`releaseSeconds * 1000 + 150` ms, storing its id on the voice. -/
def releaseVoice (s : EngineState) (midiNote vid : ℕ) : EngineState :=
  match s.arena[vid]? with
  | none => s
  | some v =>
    if s.initialized = false then s else
    if v.released then s else
    let s1 := addLog { s with arena := s.arena.set vid { v with released := true } }
      LogEvent.voiceRelease (some midiNote) none
    let pending1 : List Timer := match v.autoStopId with
      | some aid => s1.pending.filter fun (t : Timer) => t.id ≠ aid
      | none => s1.pending
    let pending2 := pending1.filter fun (t : Timer) => (s1.delayedCaptureTimeouts.contains t.id) = false
    let cid := s1.nextTimerId
    { s1 with
      arena := s.arena.set vid
        { v with released := true, autoStopId := none, cleanupTimeoutId := some cid }
      pending := pending2 ++ [({ id := cid, delayMs := v.releaseSeconds * 1000 + 150, payload := TimerPayload.cleanup midiNote vid } : Timer)]
      nextTimerId := cid + 1
      ramps := s1.ramps ++
        [Ramp.gainRelease vid s.ctxTime (s.ctxTime + v.releaseSeconds),
         Ramp.filterRelease vid s.ctxTime (s.ctxTime + v.releaseSeconds * (4/5))] }

/-- `stopNote` (lines 405-418): no-op when no voice occupies the note,
otherwise log NOTE_OFF and release the voice. -/
def stopNote (s : EngineState) (midiNote : ℕ) : EngineState :=
  match lookupA s.active midiNote with
  | none => s
  | some vid =>
    let s1 := addLog s LogEvent.noteOff (some midiNote) none
    releaseVoice s1 midiNote vid

/-- `autoReleaseDuration` in seconds (line 601):
`Math.min(8, Math.max(4, preset.decay * 2 + preset.release * 2 + 1))`. -/
def autoReleaseDuration (p : InstrumentPreset) : ℚ :=
  min 8 (max 4 (p.decay * 2 + p.release * 2 + 1))

/-- The voice-stealing scan of `playNote` (lines 430-437): fold over the map in
insertion order keeping the entry with the strictly smallest `startTime`
(`oldestTime` starts at `Infinity`, so the first entry always wins). -/
def oldestStep (ar : List Voice) (acc : Option (ℕ × ℚ)) (pr : ℕ × ℕ) : Option (ℕ × ℚ) :=
  match ar[pr.2]? with
  | none => acc
  | some v =>
    match acc with
    | none => some (pr.1, v.startTime)
    | some (bn, bt) => if v.startTime < bt then some (pr.1, v.startTime) else some (bn, bt)

/-- The note (and its `startTime`) selected by the stealing scan. -/
def oldestEntry (s : EngineState) : Option (ℕ × ℚ) :=
  s.active.foldl (oldestStep s.arena) none

/-- The voice-stealing block of `playNote` (lines 428-450): when the map holds
`MAX_POLYPHONY` or more entries, log VOICE_STEAL for the entry with the
smallest `startTime` and release it.  The scan ranges over every map entry,
released or not. -/
def stealIfNeeded (s1 : EngineState) : EngineState :=
  if MAX_POLYPHONY ≤ s1.active.length then
    match oldestEntry s1 with
    | some (oldestNote, _) =>
      match lookupA s1.active oldestNote with
      | some oldVid =>
        let s1a := addLog s1 LogEvent.voiceSteal (some oldestNote) none
        releaseVoice s1a oldestNote oldVid
      | none => s1
    | none => s1
  else s1

/-- The `Voice` record built by `playNote` (lines 579-588). -/
def newVoice (s2 : EngineState) (midiNote : ℕ) : Voice :=
  { note := midiNote
    startTime := s2.ctxTime
    released := false
    autoStopId := none
    cleanupTimeoutId := none
    releaseSeconds := piano.release }

/-- The state right after `activeVoicesRef.current.set(midiNote, voice)`
(line 590): arena extended with the fresh voice, map entry set, attack ramp
scheduled (lines 575-577). -/
def voiceInsertState (s2 : EngineState) (midiNote : ℕ) (velocity : ℚ) : EngineState :=
  { s2 with
    arena := s2.arena ++ [newVoice s2 midiNote]
    active := setKey s2.active midiNote s2.arena.length
    ramps := s2.ramps ++
      [Ramp.attack s2.arena.length s2.ctxTime (s2.ctxTime + piano.attack) (velocity * (1/2))] }

/-- The voice-creation tail of `playNote` (lines 452-607): build the new
voice, insert it into the map, log NOTE_ON, and schedule the auto-release
safety-net timer.  The oscillator-bank construction is modelled separately by
`buildOscs`; only the main-gain attack ramp is recorded here. -/
def playNoteCore (s2 : EngineState) (midiNote : ℕ) (velocity : ℚ) : EngineState :=
  let vid := s2.arena.length
  let s3 := voiceInsertState s2 midiNote velocity
  let s4 := addLog s3 LogEvent.noteOn (some midiNote) none
  let aid := s4.nextTimerId
  { s4 with
    nextTimerId := aid + 1
    pending := s4.pending ++
      [({ id := aid, delayMs := autoReleaseDuration piano * 1000, payload := TimerPayload.autoStop midiNote vid } : Timer)]
    arena := updateVoice s4.arena vid fun v => { v with autoStopId := some aid } }

/-- `playNote` (lines 420-607).  Guard on the audio context; force any existing
voice on this note into release (lines 423-426); steal if at the polyphony
ceiling; then create and register the new voice. -/
def playNote (s : EngineState) (midiNote : ℕ) (velocity : ℚ) : EngineState :=
  if s.initialized = false then s else
  let s1 := match lookupA s.active midiNote with
    | some vid => releaseVoice s midiNote vid
    | none => s
  playNoteCore (stealIfNeeded s1) midiNote velocity

/-- The per-voice body of `stopAll`'s forEach (lines 616-623): clear any
pending cleanup timer for the voice, then call `releaseVoice`. -/
def stopAllBody (acc : EngineState) (pr : ℕ × ℕ) : EngineState :=
  let acc1 := match acc.arena[pr.2]? with
    | some v =>
      match v.cleanupTimeoutId with
      | some cid =>
        { acc with
          pending := acc.pending.filter fun t => t.id ≠ cid
          arena := updateVoice acc.arena pr.2 fun w => { w with cleanupTimeoutId := none } }
      | none => acc
    | none => acc
  releaseVoice acc1 pr.1 pr.2

/-- `stopAll` (lines 609-624): log one STOP_ALL entry whose message carries the
pre-call `activeVoicesRef.current.size`, then run `stopAllBody` over the map
in insertion order. -/
def stopAll (s : EngineState) : EngineState :=
  let s1 := addLog s LogEvent.stopAllEvt none (some s.active.length)
  s1.active.foldl stopAllBody s1

/-- The event loop running one pending timer callback (a `setTimeout` firing):
a cancelled (absent) id does nothing.  An auto-stop callback re-checks that the
voice still occupies its map slot (line 603) before releasing.  A cleanup
callback deletes the voice from the map if it is still the occupant and clears
the voice's `cleanupTimeoutId` (lines 394-398).  A delayed-capture callback
snapshots the active voices into the owning log entry and removes its id from
`delayedCaptureTimeoutsRef` (lines 245-256). -/
def fireTimer (s : EngineState) (tid : ℕ) : EngineState :=
  match s.pending.find? fun t => t.id = tid with
  | none => s
  | some t =>
    let s1 := { s with pending := s.pending.filter fun t' => t'.id ≠ tid }
    match t.payload with
    | TimerPayload.autoStop note vid =>
      if lookupA s1.active note = some vid then releaseVoice s1 note vid else s1
    | TimerPayload.cleanup note vid =>
      let s2 :=
        if lookupA s1.active note = some vid then { s1 with active := deleteKey s1.active note }
        else s1
      { s2 with arena := updateVoice s2.arena vid fun v => { v with cleanupTimeoutId := none } }
    | TimerPayload.delayedCapture =>
      let snap := snapshotAll s1
      { s1 with
        logs := s1.logs.map fun e =>
          if e.delayedCaptureTimeoutId = some tid then { e with delayed := some snap } else e
        delayedCaptureTimeouts := s1.delayedCaptureTimeouts.filter fun i => i ≠ tid }

/-- `initAudio` (lines 273-316): idempotent one-time construction; the dry and
wet gains are initialised to `1 - reverbMixRef` and `reverbMixRef`
(lines 293-300), the master gain to `volumeRef`. -/
def initAudio (s : EngineState) : EngineState :=
  if s.initialized then s else
  { s with
    initialized := true
    masterGainValue := some s.volume
    reverbGainValue := some s.reverbMix
    dryGainValue := some (1 - s.reverbMix) }

/-- `setReverbMix` (lines 630-637): store the mix; when the gain nodes exist
(the engine is initialized) set wet to `mix` and dry to `1 - mix`. -/
def setReverbMix (s : EngineState) (mix : ℚ) : EngineState :=
  let s1 := { s with reverbMix := mix }
  if s1.initialized then
    { s1 with reverbGainValue := some mix, dryGainValue := some (1 - mix) }
  else s1

/-- `setVolume` (lines 639-644). -/
def setVolume (s : EngineState) (vol : ℚ) : EngineState :=
  let s1 := { s with volume := vol }
  if s1.initialized then { s1 with masterGainValue := some vol } else s1

/-- `clearLogs` (lines 736-743): cancel every tracked delayed-capture timeout,
purge the tracking map, and empty the ring. -/
def clearLogs (s : EngineState) : EngineState :=
  { s with
    pending := s.pending.filter fun t => (s.delayedCaptureTimeouts.contains t.id) = false
    delayedCaptureTimeouts := []
    logs := [] }

/-- Passage of `dt` seconds of wall-clock / audio-clock time with no callback
activity. -/
def advanceTime (s : EngineState) (dt : ℚ) : EngineState :=
  { s with ctxTime := s.ctxTime + dt, nowMs := s.nowMs + dt * 1000 }

/-- One externally observable engine step: a public API call, a timer firing,
or time passing. -/
inductive Step where
  | initA
  | play (note : ℕ) (vel : ℚ)
  | stop (note : ℕ)
  | stopAllStep
  | fire (tid : ℕ)
  | clearL
  | setMix (m : ℚ)
  | setVol (v : ℚ)
  | advance (dt : ℚ)
deriving DecidableEq

/-- Apply one step. -/
def applyStep (s : EngineState) : Step → EngineState
  | Step.initA => initAudio s
  | Step.play n v => playNote s n v
  | Step.stop n => stopNote s n
  | Step.stopAllStep => stopAll s
  | Step.fire tid => fireTimer s tid
  | Step.clearL => clearLogs s
  | Step.setMix m => setReverbMix s m
  | Step.setVol v => setVolume s v
  | Step.advance dt => advanceTime s dt

/-- Run a list of steps. -/
def run (s : EngineState) (steps : List Step) : EngineState :=
  steps.foldl applyStep s

/-! ### Association-list lemmas for the active-voice map -/

theorem lookupA_setKey_self (l : List (ℕ × ℕ)) (n v : ℕ) :
    lookupA (setKey l n v) n = some v := by
  induction l with
  | nil => simp [setKey, lookupA]
  | cons hd tl ih =>
    obtain ⟨k, w⟩ := hd
    by_cases h : k = n
    · simp [setKey, h, lookupA]
    · simp [setKey, h, lookupA, ih]

theorem lookupA_setKey_ne (l : List (ℕ × ℕ)) (n v m : ℕ) (h : m ≠ n) :
    lookupA (setKey l n v) m = lookupA l m := by
  induction l with
  | nil => simp [setKey, lookupA, h, Ne.symm h]
  | cons hd tl ih =>
    obtain ⟨k, w⟩ := hd
    by_cases hk : k = n
    · subst hk
      simp [setKey, lookupA, Ne.symm h, h]
    · simp only [setKey, if_neg hk, lookupA, ih]

theorem mem_setKey (l : List (ℕ × ℕ)) (n v : ℕ) (p : ℕ × ℕ) (hp : p ∈ setKey l n v) :
    p = (n, v) ∨ p ∈ l := by
  induction l with
  | nil => simpa [setKey] using hp
  | cons hd tl ih =>
    obtain ⟨k, w⟩ := hd
    by_cases hk : k = n
    · simp only [setKey, if_pos hk, List.mem_cons] at hp
      rcases hp with h | h
      · exact Or.inl h
      · exact Or.inr (List.mem_cons_of_mem _ h)
    · simp only [setKey, if_neg hk, List.mem_cons] at hp
      rcases hp with h | h
      · exact Or.inr (by simp [h])
      · rcases ih h with h1 | h1
        · exact Or.inl h1
        · exact Or.inr (List.mem_cons_of_mem _ h1)

theorem pairwise_setKey (l : List (ℕ × ℕ)) (n v : ℕ)
    (h : l.Pairwise fun p q => p.1 ≠ q.1) :
    (setKey l n v).Pairwise fun p q => p.1 ≠ q.1 := by
  induction l with
  | nil => simp [setKey]
  | cons hd tl ih =>
    obtain ⟨k, w⟩ := hd
    rw [List.pairwise_cons] at h
    by_cases hk : k = n
    · subst hk
      simp only [setKey, if_pos rfl]
      exact List.pairwise_cons.2 ⟨h.1, h.2⟩
    · simp only [setKey, if_neg hk]
      refine List.pairwise_cons.2 ⟨?_, ih h.2⟩
      intro p hp
      rcases mem_setKey tl n v p hp with h1 | h1
      · simpa [h1] using hk
      · exact h.1 p h1

theorem deleteKey_sublist (l : List (ℕ × ℕ)) (n : ℕ) : List.Sublist (deleteKey l n) l := by
  induction l with
  | nil => simp [deleteKey]
  | cons hd tl ih =>
    obtain ⟨k, w⟩ := hd
    by_cases hk : k = n
    · simp only [deleteKey, if_pos hk]
      exact (List.sublist_cons_self _ _)
    · simp only [deleteKey, if_neg hk]
      exact ih.cons₂ _

theorem mem_deleteKey (l : List (ℕ × ℕ)) (n : ℕ) (p : ℕ × ℕ) (hp : p ∈ deleteKey l n) :
    p ∈ l :=
  (deleteKey_sublist l n).mem hp

theorem pairwise_deleteKey (l : List (ℕ × ℕ)) (n : ℕ)
    (h : l.Pairwise fun p q => p.1 ≠ q.1) :
    (deleteKey l n).Pairwise fun p q => p.1 ≠ q.1 :=
  h.sublist (deleteKey_sublist l n)

theorem lookupA_deleteKey_ne (l : List (ℕ × ℕ)) (n m : ℕ) (h : m ≠ n) :
    lookupA (deleteKey l n) m = lookupA l m := by
  induction l with
  | nil => simp [deleteKey]
  | cons hd tl ih =>
    obtain ⟨k, w⟩ := hd
    by_cases hk : k = n
    · subst hk
      simp [deleteKey, lookupA, Ne.symm h]
    · by_cases hm : k = m
      · simp [deleteKey, hk, lookupA, hm, h]
      · simp [deleteKey, hk, lookupA, hm, ih]

theorem lookupA_eq_some_of_mem (l : List (ℕ × ℕ)) (p : ℕ × ℕ)
    (hnd : l.Pairwise fun a b => a.1 ≠ b.1) (hm : p ∈ l) :
    lookupA l p.1 = some p.2 := by
  induction l with
  | nil => cases hm
  | cons hd tl ih =>
    obtain ⟨k, w⟩ := hd
    rw [List.pairwise_cons] at hnd
    rcases List.mem_cons.1 hm with h | h
    · subst h
      simp [lookupA]
    · have hk : k ≠ p.1 := hnd.1 p h
      simp only [lookupA, if_neg hk]
      exact ih hnd.2 h

theorem mem_of_lookupA (l : List (ℕ × ℕ)) (n v : ℕ) (h : lookupA l n = some v) :
    (n, v) ∈ l := by
  induction l with
  | nil => simp [lookupA] at h
  | cons hd tl ih =>
    obtain ⟨k, w⟩ := hd
    by_cases hk : k = n
    · subst hk
      have h1 : w = v := by simpa [lookupA] using h
      subst h1
      exact List.mem_cons_self _ _
    · simp only [lookupA, if_neg hk] at h
      exact List.mem_cons_of_mem _ (ih h)

/-! ### The allocator well-formedness invariant -/

/-- A map entry points at an arena voice created under the same note. -/
def entryOk (ar : List Voice) (pr : ℕ × ℕ) : Bool :=
  match ar[pr.2]? with
  | some v => decide (v.note = pr.1)
  | none => false

/-- An unreleased voice is exactly the map occupant of its note. -/
def voiceOk (active : List (ℕ × ℕ)) (ar : List Voice) (vid : ℕ) : Bool :=
  match ar[vid]? with
  | some v => v.released || decide (lookupA active v.note = some vid)
  | none => true

/-- A pending cleanup timer only ever targets an already-released voice, and a
pending delayed-capture timer is tracked in `delayedCaptureTimeoutsRef`. -/
def timerOk (ar : List Voice) (dct : List ℕ) (t : Timer) : Bool :=
  match t.payload with
  | TimerPayload.cleanup _ vid =>
    match ar[vid]? with
    | some v => v.released
    | none => false
  | TimerPayload.delayedCapture => dct.contains t.id
  | TimerPayload.autoStop _ _ => true

/-- A log entry's delayed-capture timer id was allocated in the past. -/
def logTidOk (nextId : ℕ) (e : LogEntry) : Bool :=
  match e.delayedCaptureTimeoutId with
  | some tid => decide (tid < nextId)
  | none => true

/-- Well-formedness of an engine state: distinct map keys, map entries backed
by arena voices of the same note, unreleased voices uniquely located by the
map, pending-timer hygiene, and freshness of allocated timer ids. -/
def Wf (s : EngineState) : Prop :=
  s.active.Pairwise (fun p q => p.1 ≠ q.1) ∧
  (∀ pr ∈ s.active, entryOk s.arena pr = true) ∧
  (∀ vid, vid < s.arena.length → voiceOk s.active s.arena vid = true) ∧
  (∀ t ∈ s.pending, timerOk s.arena s.delayedCaptureTimeouts t = true) ∧
  (∀ t ∈ s.pending, t.id < s.nextTimerId) ∧
  s.pending.Pairwise (fun a b => a.id ≠ b.id) ∧
  (∀ e ∈ s.logs, logTidOk s.nextTimerId e = true) ∧
  s.logs.length ≤ 1000

instance (s : EngineState) : Decidable (Wf s) := by
  unfold Wf
  infer_instance

theorem entryOk_iff (ar : List Voice) (pr : ℕ × ℕ) :
    entryOk ar pr = true ↔ ∃ v, ar[pr.2]? = some v ∧ v.note = pr.1 := by
  unfold entryOk
  cases h : ar[pr.2]? with
  | none => simp
  | some v => simp

theorem voiceOk_iff (active : List (ℕ × ℕ)) (ar : List Voice) (vid : ℕ) :
    voiceOk active ar vid = true ↔
      ∀ v, ar[vid]? = some v → v.released = false → lookupA active v.note = some vid := by
  unfold voiceOk
  cases h : ar[vid]? with
  | none => simp
  | some v =>
    cases hr : v.released <;> simp [hr]

theorem timerOk_cleanup_iff (ar : List Voice) (dct : List ℕ) (a vid : ℕ) (dm : ℚ) (i : ℕ) :
    timerOk ar dct ⟨i, dm, TimerPayload.cleanup a vid⟩ = true ↔
      ∃ v, ar[vid]? = some v ∧ v.released = true := by
  unfold timerOk
  cases h : ar[vid]? with
  | none => simp [h]
  | some v => simp [h]

/-! ### Equations and invariant preservation for addLog -/

theorem addLog_not_init (s : EngineState) (ev : LogEvent) (mn mc : Option ℕ)
    (h : s.initialized = false) : addLog s ev mn mc = s := by
  simp [addLog, h]

theorem addLog_push (s : EngineState) (ev : LogEvent) (mn mc : Option ℕ)
    (hinit : s.initialized = true) (hlen : s.logs.length < 1000) :
    addLog s ev mn mc =
      { s with
        nextTimerId := s.nextTimerId + 1
        pending := s.pending ++ [dcTimer s]
        delayedCaptureTimeouts := s.delayedCaptureTimeouts ++ [s.nextTimerId]
        logs := s.logs ++ [newLogEntry s ev mn mc] } := by
  have h1 : ¬ (1000 < s.logs.length + 1) := by omega
  simp [addLog, hinit, h1]

theorem addLog_evict (s : EngineState) (ev : LogEvent) (mn mc : Option ℕ)
    (hinit : s.initialized = true) (e : LogEntry) (rest : List LogEntry)
    (hlogs : s.logs = e :: rest) (hlen : 1000 ≤ s.logs.length) (rid : ℕ)
    (hrid : e.delayedCaptureTimeoutId = some rid) :
    addLog s ev mn mc =
      { s with
        nextTimerId := s.nextTimerId + 1
        pending := (s.pending ++ [dcTimer s]).filter fun t => t.id ≠ rid
        delayedCaptureTimeouts :=
          (s.delayedCaptureTimeouts ++ [s.nextTimerId]).filter fun i => i ≠ rid
        logs := rest ++ [newLogEntry s ev mn mc] } := by
  rw [hlogs] at hlen
  simp only [List.length_cons] at hlen
  simp [addLog, hinit, hlogs, hrid]
  omega

theorem addLog_active (s : EngineState) (ev : LogEvent) (mn mc : Option ℕ) :
    (addLog s ev mn mc).active = s.active := by
  unfold addLog
  try dsimp only
  repeat' split
  all_goals rfl

theorem addLog_arena (s : EngineState) (ev : LogEvent) (mn mc : Option ℕ) :
    (addLog s ev mn mc).arena = s.arena := by
  unfold addLog
  try dsimp only
  repeat' split
  all_goals rfl

theorem addLog_ctxTime (s : EngineState) (ev : LogEvent) (mn mc : Option ℕ) :
    (addLog s ev mn mc).ctxTime = s.ctxTime := by
  unfold addLog
  try dsimp only
  repeat' split
  all_goals rfl

theorem addLog_initialized (s : EngineState) (ev : LogEvent) (mn mc : Option ℕ) :
    (addLog s ev mn mc).initialized = s.initialized := by
  unfold addLog
  try dsimp only
  repeat' split
  all_goals rfl

theorem addLog_nextTimerId (s : EngineState) (ev : LogEvent) (mn mc : Option ℕ)
    (hinit : s.initialized = true) :
    (addLog s ev mn mc).nextTimerId = s.nextTimerId + 1 := by
  unfold addLog
  rw [hinit]
  try dsimp only
  repeat' split
  all_goals first | rfl | simp_all

theorem logTidOk_mono (n m : ℕ) (e : LogEntry) (hnm : n ≤ m) (h : logTidOk n e = true) :
    logTidOk m e = true := by
  unfold logTidOk at *
  cases htid : e.delayedCaptureTimeoutId with
  | none => simp
  | some tid =>
    rw [htid] at h
    simp only [decide_eq_true_eq] at h ⊢
    omega

theorem timerOk_dct_adjust (ar : List Voice) (dct dct' : List ℕ) (t : Timer)
    (hsub : t.payload = TimerPayload.delayedCapture → t.id ∈ dct → t.id ∈ dct')
    (h : timerOk ar dct t = true) : timerOk ar dct' t = true := by
  unfold timerOk at *
  cases hp : t.payload with
  | autoStop a b => simp
  | cleanup a b => rw [hp] at h; exact h
  | delayedCapture =>
    rw [hp] at h
    simp only [List.elem_iff] at h ⊢
    exact hsub hp h

theorem timerOk_arena_congr (ar ar' : List Voice) (dct : List ℕ) (t : Timer)
    (h : ∀ vid : ℕ, (ar[vid]?).map Voice.released = (ar'[vid]?).map Voice.released) :
    timerOk ar dct t = timerOk ar' dct t := by
  unfold timerOk
  cases hp : t.payload with
  | autoStop a b => rfl
  | delayedCapture => rfl
  | cleanup a vid =>
    have h1 := h vid
    cases h2 : ar[vid]? with
    | none =>
      cases h3 : ar'[vid]? with
      | none => simp [h2, h3]
      | some v => rw [h2, h3] at h1; simp at h1
    | some v =>
      cases h3 : ar'[vid]? with
      | none => rw [h2, h3] at h1; simp at h1
      | some w =>
        rw [h2, h3] at h1
        simp at h1
        simp [h2, h3, h1]

theorem addLog_evict_none (s : EngineState) (ev : LogEvent) (mn mc : Option ℕ)
    (hinit : s.initialized = true) (e : LogEntry) (rest : List LogEntry)
    (hlogs : s.logs = e :: rest) (hlen : 1000 ≤ s.logs.length)
    (hrid : e.delayedCaptureTimeoutId = none) :
    addLog s ev mn mc =
      { s with
        nextTimerId := s.nextTimerId + 1
        pending := s.pending ++ [dcTimer s]
        delayedCaptureTimeouts := s.delayedCaptureTimeouts ++ [s.nextTimerId]
        logs := rest ++ [newLogEntry s ev mn mc] } := by
  rw [hlogs] at hlen
  simp only [List.length_cons] at hlen
  simp [addLog, hinit, hlogs, hrid]
  omega

/-- `addLog` preserves allocator well-formedness. -/
theorem wf_addLog (s : EngineState) (ev : LogEvent) (mn mc : Option ℕ) (hw : Wf s) :
    Wf (addLog s ev mn mc) := by
  obtain ⟨w1, w2, w3, w4, w5, w6, w7, w8⟩ := hw
  cases hinit : s.initialized with
  | false =>
    rw [addLog_not_init _ _ _ _ hinit]
    exact ⟨w1, w2, w3, w4, w5, w6, w7, w8⟩
  | true =>
    have hpairNew : (s.pending ++ [dcTimer s]).Pairwise (fun a b => a.id ≠ b.id) := by
      refine List.pairwise_append.2 ⟨w6, List.pairwise_singleton _ _, ?_⟩
      intro a ha b hb
      rw [List.mem_singleton.1 hb]
      have := w5 a ha
      simp only [dcTimer]
      omega
    rcases Nat.lt_or_ge s.logs.length 1000 with hlen | hlen
    · rw [addLog_push _ _ _ _ hinit hlen]
      refine ⟨w1, w2, w3, ?_, ?_, hpairNew, ?_, ?_⟩
      · intro t ht
        rcases List.mem_append.1 ht with h | h
        · refine timerOk_dct_adjust _ _ _ _ ?_ (w4 t h)
          intro _ hm
          exact List.mem_append.2 (Or.inl hm)
        · rw [List.mem_singleton.1 h]
          simp [timerOk, dcTimer]
      · intro t ht
        rcases List.mem_append.1 ht with h | h
        · exact Nat.lt_succ_of_lt (w5 t h)
        · rw [List.mem_singleton.1 h]
          simp [dcTimer]
      · intro e he
        rcases List.mem_append.1 he with h | h
        · exact logTidOk_mono _ _ _ (Nat.le_succ _) (w7 e h)
        · rw [List.mem_singleton.1 h]
          simp [logTidOk, newLogEntry]
      · simp only [List.length_append, List.length_singleton]
        omega
    · obtain ⟨e, rest, hlogs⟩ : ∃ e rest, s.logs = e :: rest := by
        cases hl : s.logs with
        | nil => rw [hl] at hlen; simp at hlen
        | cons a l => exact ⟨a, l, rfl⟩
      have hrest : rest.length + 1 ≤ 1000 := by
        rw [hlogs] at w8
        simpa using w8
      cases hrid : e.delayedCaptureTimeoutId with
      | none =>
        rw [addLog_evict_none _ _ _ _ hinit e rest hlogs hlen hrid]
        refine ⟨w1, w2, w3, ?_, ?_, hpairNew, ?_, ?_⟩
        · intro t ht
          rcases List.mem_append.1 ht with h | h
          · refine timerOk_dct_adjust _ _ _ _ ?_ (w4 t h)
            intro _ hm
            exact List.mem_append.2 (Or.inl hm)
          · rw [List.mem_singleton.1 h]
            simp [timerOk, dcTimer]
        · intro t ht
          rcases List.mem_append.1 ht with h | h
          · exact Nat.lt_succ_of_lt (w5 t h)
          · rw [List.mem_singleton.1 h]
            simp [dcTimer]
        · intro e1 he1
          rcases List.mem_append.1 he1 with h | h
          · have he1s : e1 ∈ s.logs := by rw [hlogs]; exact List.mem_cons_of_mem _ h
            exact logTidOk_mono _ _ _ (Nat.le_succ _) (w7 e1 he1s)
          · rw [List.mem_singleton.1 h]
            simp [logTidOk, newLogEntry]
        · simp only [List.length_append, List.length_singleton]
          omega
      | some rid =>
        have hridlt : rid < s.nextTimerId := by
          have he : e ∈ s.logs := by rw [hlogs]; exact List.mem_cons_self _ _
          have h7 := w7 e he
          unfold logTidOk at h7
          rw [hrid] at h7
          simpa using h7
        rw [addLog_evict _ _ _ _ hinit e rest hlogs hlen rid hrid]
        refine ⟨w1, w2, w3, ?_, ?_, hpairNew.sublist (List.filter_sublist _), ?_, ?_⟩
        · intro t ht
          have ht1 := List.mem_filter.1 ht
          have htid : t.id ≠ rid := by simpa using ht1.2
          rcases List.mem_append.1 ht1.1 with h | h
          · refine timerOk_dct_adjust _ _ _ _ ?_ (w4 t h)
            intro _ hm
            exact List.mem_filter.2
              ⟨List.mem_append.2 (Or.inl hm), by simpa using htid⟩
          · have hnr : s.nextTimerId ≠ rid := by omega
            have hmem : s.nextTimerId ∈
                (s.delayedCaptureTimeouts ++ [s.nextTimerId]).filter fun i => i ≠ rid :=
              List.mem_filter.2
                ⟨List.mem_append.2 (Or.inr (List.mem_singleton.2 rfl)), by simpa using hnr⟩
            rw [List.mem_singleton.1 h]
            simp only [timerOk, dcTimer, List.elem_iff]
            exact hmem
        · intro t ht
          have ht1 := List.mem_filter.1 ht
          rcases List.mem_append.1 ht1.1 with h | h
          · exact Nat.lt_succ_of_lt (w5 t h)
          · rw [List.mem_singleton.1 h]
            simp [dcTimer]
        · intro e1 he1
          rcases List.mem_append.1 he1 with h | h
          · have he1s : e1 ∈ s.logs := by rw [hlogs]; exact List.mem_cons_of_mem _ h
            exact logTidOk_mono _ _ _ (Nat.le_succ _) (w7 e1 he1s)
          · rw [List.mem_singleton.1 h]
            simp [logTidOk, newLogEntry]
        · simp only [List.length_append, List.length_singleton]
          omega

/-! ### Equations and invariant preservation for releaseVoice -/

theorem lt_length_of_getElem? {α : Type} (l : List α) (i : ℕ) (a : α) (h : l[i]? = some a) :
    i < l.length := by
  by_contra hc
  push_neg at hc
  rw [List.getElem?_eq_none hc] at h
  exact Option.noConfusion h

theorem releaseVoice_no_voice (s : EngineState) (n vid : ℕ) (h : s.arena[vid]? = none) :
    releaseVoice s n vid = s := by
  simp [releaseVoice, h]

theorem releaseVoice_not_init (s : EngineState) (n vid : ℕ) (h : s.initialized = false) :
    releaseVoice s n vid = s := by
  unfold releaseVoice
  cases hv : s.arena[vid]? with
  | none => rfl
  | some v => simp [h]

theorem releaseVoice_released (s : EngineState) (n vid : ℕ) (v : Voice)
    (hv : s.arena[vid]? = some v) (hrel : v.released = true) :
    releaseVoice s n vid = s := by
  simp [releaseVoice, hv, hrel]

/-- The post-release state of `releaseVoice`, written in terms of the
intermediate state `sA` reached after the VOICE_RELEASE log entry. -/
theorem releaseVoice_eq (s : EngineState) (n vid : ℕ) (v : Voice)
    (hv : s.arena[vid]? = some v) (hinit : s.initialized = true) (hrel : v.released = false) :
    releaseVoice s n vid =
      (let sA := addLog { s with arena := s.arena.set vid { v with released := true } }
        LogEvent.voiceRelease (some n) none
      { sA with
        arena := s.arena.set vid
          { v with released := true, autoStopId := none,
                   cleanupTimeoutId := some sA.nextTimerId }
        pending :=
          ((match v.autoStopId with
            | some aid => sA.pending.filter fun (t : Timer) => t.id ≠ aid
            | none => sA.pending).filter
              fun (t : Timer) => (sA.delayedCaptureTimeouts.contains t.id) = false)
          ++ [({ id := sA.nextTimerId, delayMs := v.releaseSeconds * 1000 + 150,
                 payload := TimerPayload.cleanup n vid } : Timer)]
        nextTimerId := sA.nextTimerId + 1
        ramps := sA.ramps ++
          [Ramp.gainRelease vid s.ctxTime (s.ctxTime + v.releaseSeconds),
           Ramp.filterRelease vid s.ctxTime (s.ctxTime + v.releaseSeconds * (4/5))] }) := by
  simp [releaseVoice, hv, hinit, hrel]

theorem releaseVoice_active (s : EngineState) (n vid : ℕ) :
    (releaseVoice s n vid).active = s.active := by
  cases hv : s.arena[vid]? with
  | none => rw [releaseVoice_no_voice _ _ _ hv]
  | some v =>
    cases hinit : s.initialized with
    | false => rw [releaseVoice_not_init _ _ _ hinit]
    | true =>
      cases hrel : v.released with
      | true => rw [releaseVoice_released _ _ _ _ hv hrel]
      | false =>
        rw [releaseVoice_eq _ _ _ _ hv hinit hrel]
        simp [addLog_active]

theorem releaseVoice_initialized (s : EngineState) (n vid : ℕ) :
    (releaseVoice s n vid).initialized = s.initialized := by
  cases hv : s.arena[vid]? with
  | none => rw [releaseVoice_no_voice _ _ _ hv]
  | some v =>
    cases hinit : s.initialized with
    | false => rw [releaseVoice_not_init _ _ _ hinit]; exact hinit
    | true =>
      cases hrel : v.released with
      | true => rw [releaseVoice_released _ _ _ _ hv hrel]; exact hinit
      | false =>
        rw [releaseVoice_eq _ _ _ _ hv hinit hrel]
        simp [addLog_initialized, hinit]

theorem releaseVoice_ctxTime (s : EngineState) (n vid : ℕ) :
    (releaseVoice s n vid).ctxTime = s.ctxTime := by
  cases hv : s.arena[vid]? with
  | none => rw [releaseVoice_no_voice _ _ _ hv]
  | some v =>
    cases hinit : s.initialized with
    | false => rw [releaseVoice_not_init _ _ _ hinit]
    | true =>
      cases hrel : v.released with
      | true => rw [releaseVoice_released _ _ _ _ hv hrel]
      | false =>
        rw [releaseVoice_eq _ _ _ _ hv hinit hrel]
        simp [addLog_ctxTime]

theorem releaseVoice_arena_length (s : EngineState) (n vid : ℕ) :
    (releaseVoice s n vid).arena.length = s.arena.length := by
  cases hv : s.arena[vid]? with
  | none => rw [releaseVoice_no_voice _ _ _ hv]
  | some v =>
    cases hinit : s.initialized with
    | false => rw [releaseVoice_not_init _ _ _ hinit]
    | true =>
      cases hrel : v.released with
      | true => rw [releaseVoice_released _ _ _ _ hv hrel]
      | false =>
        rw [releaseVoice_eq _ _ _ _ hv hinit hrel]
        simp

theorem releaseVoice_arena_ne (s : EngineState) (n vid i : ℕ) (hne : i ≠ vid) :
    (releaseVoice s n vid).arena[i]? = s.arena[i]? := by
  cases hv : s.arena[vid]? with
  | none => rw [releaseVoice_no_voice _ _ _ hv]
  | some v =>
    cases hinit : s.initialized with
    | false => rw [releaseVoice_not_init _ _ _ hinit]
    | true =>
      cases hrel : v.released with
      | true => rw [releaseVoice_released _ _ _ _ hv hrel]
      | false =>
        rw [releaseVoice_eq _ _ _ _ hv hinit hrel]
        simp only
        exact List.getElem?_set_ne (fun h => hne h.symm)

/-- After any `releaseVoice`, a voice that was released stays released, and
note and start time never change. -/
theorem releaseVoice_arena_mono (s : EngineState) (n vid i : ℕ) (u : Voice)
    (hu : s.arena[i]? = some u) :
    ∃ u', (releaseVoice s n vid).arena[i]? = some u' ∧ u'.note = u.note ∧
      u'.startTime = u.startTime ∧ u'.releaseSeconds = u.releaseSeconds ∧
      (u.released = true → u'.released = true) := by
  by_cases hne : i = vid
  · subst hne
    cases hv : s.arena[i]? with
    | none => rw [hv] at hu; exact Option.noConfusion hu
    | some v =>
      rw [hv] at hu
      injection hu with hu
      subst hu
      cases hinit : s.initialized with
      | false =>
        rw [releaseVoice_not_init _ _ _ hinit]
        exact ⟨v, hv, rfl, rfl, rfl, fun h => h⟩
      | true =>
        cases hrel : v.released with
        | true =>
          rw [releaseVoice_released _ _ _ _ hv hrel]
          exact ⟨v, hv, rfl, rfl, rfl, fun _ => hrel⟩
        | false =>
          rw [releaseVoice_eq _ _ _ _ hv hinit hrel]
          exact ⟨_, List.getElem?_set_self (lt_length_of_getElem? _ _ _ hv),
            rfl, rfl, rfl, fun _ => rfl⟩
  · rw [releaseVoice_arena_ne _ _ _ _ hne]
    exact ⟨u, hu, rfl, rfl, rfl, fun h => h⟩

theorem timerOk_arena_release_mono (ar ar' : List Voice) (dct : List ℕ) (t : Timer)
    (h : ∀ i : ℕ, ∀ u : Voice, ar[i]? = some u → u.released = true →
      ∃ u', ar'[i]? = some u' ∧ u'.released = true)
    (ht : timerOk ar dct t = true) : timerOk ar' dct t = true := by
  unfold timerOk at *
  cases hp : t.payload with
  | autoStop a b => simp
  | delayedCapture => rw [hp] at ht; exact ht
  | cleanup a vid =>
    rw [hp] at ht
    dsimp only at ht ⊢
    cases h2 : ar[vid]? with
    | none => rw [h2] at ht; exact Bool.noConfusion ht
    | some u =>
      rw [h2] at ht
      obtain ⟨u', hu', hrel'⟩ := h vid u h2 ht
      rw [hu']
      exact hrel'

/-- Well-formedness of the final record produced by the active branch of
`releaseVoice`, stated over the intermediate post-log state `sA`. -/
theorem wf_release_record (s sA : EngineState) (n vid : ℕ) (v : Voice)
    (hv : s.arena[vid]? = some v)
    (hA_arena : sA.arena = s.arena.set vid { v with released := true })
    (hwA : Wf sA)
    (pend2 : List Timer) (hp2 : ∀ t ∈ pend2, t ∈ sA.pending)
    (hp2pair : pend2.Pairwise fun a b => a.id ≠ b.id)
    (dm : ℚ) (R : List Ramp) :
    Wf { sA with
         arena := s.arena.set vid
           { v with released := true, autoStopId := none,
                    cleanupTimeoutId := some sA.nextTimerId }
         pending := pend2 ++
           [({ id := sA.nextTimerId, delayMs := dm,
               payload := TimerPayload.cleanup n vid } : Timer)]
         nextTimerId := sA.nextTimerId + 1
         ramps := R } := by
  obtain ⟨a1, a2, a3, a4, a5, a6, a7, a8⟩ := hwA
  have hlt : vid < s.arena.length := lt_length_of_getElem? _ _ _ hv
  have hrelmap : ∀ i : ℕ,
      (sA.arena[i]?).map Voice.released =
      ((s.arena.set vid
        { v with released := true, autoStopId := none,
                 cleanupTimeoutId := some sA.nextTimerId })[i]?).map Voice.released := by
    intro i
    by_cases hie : i = vid
    · subst hie
      rw [hA_arena, List.getElem?_set_self hlt, List.getElem?_set_self hlt]
      rfl
    · rw [hA_arena, List.getElem?_set_ne (fun h => hie h.symm),
        List.getElem?_set_ne (fun h => hie h.symm)]
  refine ⟨a1, ?_, ?_, ?_, ?_, ?_, ?_, a8⟩
  · -- entries still point at voices of the same note
    intro pr hpr
    have h2 := a2 pr hpr
    rw [entryOk_iff] at h2 ⊢
    obtain ⟨u, hu, hnote⟩ := h2
    by_cases hpe : pr.2 = vid
    · subst hpe
      rw [hA_arena, List.getElem?_set_self hlt] at hu
      injection hu with hu
      refine ⟨_, List.getElem?_set_self hlt, ?_⟩
      rw [← hu] at hnote
      exact hnote
    · rw [hA_arena, List.getElem?_set_ne (fun h => hpe h.symm)] at hu
      exact ⟨u, by rw [List.getElem?_set_ne (fun h => hpe h.symm)]; exact hu, hnote⟩
  · -- unreleased voices are still located by the map
    intro i hi
    simp only [List.length_set] at hi
    rw [voiceOk_iff]
    intro w hw hwrel
    by_cases hie : i = vid
    · subst hie
      rw [List.getElem?_set_self hlt] at hw
      injection hw with hw
      rw [← hw] at hwrel
      simp at hwrel
    · rw [List.getElem?_set_ne (fun h => hie h.symm)] at hw
      have h3 := a3 i (by rw [hA_arena, List.length_set]; exact hi)
      rw [voiceOk_iff] at h3
      have := h3 w (by rw [hA_arena, List.getElem?_set_ne (fun h => hie h.symm)]; exact hw) hwrel
      exact this
  · -- timers stay healthy
    intro t ht
    rcases List.mem_append.1 ht with h | h
    · have h4 := a4 t (hp2 t h)
      rw [timerOk_arena_congr _ _ _ _ hrelmap] at h4
      exact h4
    · rw [List.mem_singleton.1 h]
      simp only [timerOk, List.getElem?_set_self hlt]
  · -- timer ids below the allocator frontier
    intro t ht
    rcases List.mem_append.1 ht with h | h
    · exact Nat.lt_succ_of_lt (a5 t (hp2 t h))
    · rw [List.mem_singleton.1 h]
      simp
  · -- timer ids distinct
    refine List.pairwise_append.2 ⟨hp2pair, List.pairwise_singleton _ _, ?_⟩
    intro a ha b hb
    rw [List.mem_singleton.1 hb]
    have := a5 a (hp2 a ha)
    simp only []
    omega
  · -- log entry timer ids stay in the past
    intro e he
    exact logTidOk_mono _ _ _ (Nat.le_succ _) (a7 e he)

/-- Setting a voice's released flag (the first mutation of an active
`releaseVoice`) preserves well-formedness. -/
theorem wf_release_marked (s : EngineState) (vid : ℕ) (v : Voice)
    (hv : s.arena[vid]? = some v) (hrel : v.released = false) (hw : Wf s) :
    Wf { s with arena := s.arena.set vid { v with released := true } } := by
  have hlt : vid < s.arena.length := lt_length_of_getElem? _ _ _ hv
  obtain ⟨w1, w2, w3, w4, w5, w6, w7, w8⟩ := hw
  refine ⟨w1, ?_, ?_, ?_, w5, w6, w7, w8⟩
  · intro pr hpr
    have h2 := w2 pr hpr
    rw [entryOk_iff] at h2 ⊢
    obtain ⟨u, hu, hnote⟩ := h2
    by_cases hpe : pr.2 = vid
    · subst hpe
      rw [hu] at hv
      injection hv with hv
      refine ⟨_, List.getElem?_set_self hlt, ?_⟩
      rw [hv] at hnote
      exact hnote
    · exact ⟨u, by rw [List.getElem?_set_ne (fun h => hpe h.symm)]; exact hu, hnote⟩
  · intro i hi
    simp only [List.length_set] at hi
    rw [voiceOk_iff]
    intro w hw' hwrel
    by_cases hie : i = vid
    · subst hie
      rw [List.getElem?_set_self hlt] at hw'
      injection hw' with hw'
      rw [← hw'] at hwrel
      simp at hwrel
    · rw [List.getElem?_set_ne (fun h => hie h.symm)] at hw'
      have h3 := w3 i hi
      rw [voiceOk_iff] at h3
      exact h3 w hw' hwrel
  · intro t ht
    have h4 := w4 t ht
    refine timerOk_arena_release_mono s.arena _ s.delayedCaptureTimeouts t ?_ h4
    intro i u hu hurel
    by_cases hie : i = vid
    · subst hie
      rw [hu] at hv
      injection hv with hveq
      rw [hveq] at hurel
      rw [hrel] at hurel
      exact Bool.noConfusion hurel
    · exact ⟨u, by rw [List.getElem?_set_ne (fun h => hie h.symm)]; exact hu, hurel⟩

/-- `releaseVoice` preserves allocator well-formedness. -/
theorem wf_releaseVoice (s : EngineState) (n vid : ℕ) (hw : Wf s) :
    Wf (releaseVoice s n vid) := by
  cases hv : s.arena[vid]? with
  | none => rw [releaseVoice_no_voice _ _ _ hv]; exact hw
  | some v =>
    cases hinit : s.initialized with
    | false => rw [releaseVoice_not_init _ _ _ hinit]; exact hw
    | true =>
      cases hrel : v.released with
      | true => rw [releaseVoice_released _ _ _ _ hv hrel]; exact hw
      | false =>
        have hlt : vid < s.arena.length := lt_length_of_getElem? _ _ _ hv
        have hw0 : Wf { s with arena := s.arena.set vid { v with released := true } } :=
          wf_release_marked s vid v hv hrel hw
        have hwA := wf_addLog { s with arena := s.arena.set vid { v with released := true } }
          LogEvent.voiceRelease (some n) none hw0
        have a6 := hwA.2.2.2.2.2.1
        rw [releaseVoice_eq _ _ _ _ hv hinit hrel]
        refine wf_release_record s
          (addLog { s with arena := s.arena.set vid { v with released := true } }
            LogEvent.voiceRelease (some n) none)
          n vid v hv (by rw [addLog_arena]) hwA _ ?_ ?_ _ _
        · intro t ht
          have ht1 := (List.mem_filter.1 ht).1
          cases hasid : v.autoStopId with
          | some aid =>
            simp only [hasid] at ht1 ⊢
            exact (List.mem_filter.1 ht1).1
          | none =>
            simp only [hasid] at ht1 ⊢
            exact ht1
        · cases hasid : v.autoStopId with
          | some aid =>
            simp only [hasid] at a6 ⊢
            exact (a6.sublist (List.filter_sublist _)).sublist (List.filter_sublist _)
          | none =>
            simp only [hasid] at a6 ⊢
            exact a6.sublist (List.filter_sublist _)

/-! ### Invariant preservation for the remaining operations -/

theorem wf_pending_filter (s : EngineState) (p : Timer → Bool) (hw : Wf s) :
    Wf { s with pending := s.pending.filter p } := by
  obtain ⟨w1, w2, w3, w4, w5, w6, w7, w8⟩ := hw
  refine ⟨w1, w2, w3, ?_, ?_, w6.sublist (List.filter_sublist _), w7, w8⟩
  · intro t ht
    exact w4 t (List.mem_filter.1 ht).1
  · intro t ht
    exact w5 t (List.mem_filter.1 ht).1

/-- Updating one arena record without touching its note or released flag keeps
the state well-formed. -/
theorem wf_arena_update (s : EngineState) (vid : ℕ) (f : Voice → Voice)
    (hf : ∀ v, (f v).note = v.note ∧ (f v).released = v.released) (hw : Wf s) :
    Wf { s with arena := updateVoice s.arena vid f } := by
  unfold updateVoice
  cases hv : s.arena[vid]? with
  | none => exact hw
  | some v =>
    try dsimp only
    obtain ⟨w1, w2, w3, w4, w5, w6, w7, w8⟩ := hw
    have hlt : vid < s.arena.length := lt_length_of_getElem? _ _ _ hv
    refine ⟨w1, ?_, ?_, ?_, w5, w6, w7, w8⟩
    · intro pr hpr
      have h2 := w2 pr hpr
      rw [entryOk_iff] at h2 ⊢
      obtain ⟨u, hu, hnote⟩ := h2
      by_cases hpe : pr.2 = vid
      · subst hpe
        rw [hu] at hv
        injection hv with hveq
        refine ⟨f v, List.getElem?_set_self hlt, ?_⟩
        rw [(hf v).1]
        rw [hveq] at hnote
        exact hnote
      · exact ⟨u, by rw [List.getElem?_set_ne (fun h => hpe h.symm)]; exact hu, hnote⟩
    · intro i hi
      simp only [List.length_set] at hi
      rw [voiceOk_iff]
      intro w hw' hwrel
      by_cases hie : i = vid
      · subst hie
        rw [List.getElem?_set_self hlt] at hw'
        injection hw' with hw'
        have h3 := w3 i hi
        rw [voiceOk_iff] at h3
        have hvrel : v.released = false := by
          rw [← (hf v).2, hw', hwrel]
        have hlook := h3 v hv hvrel
        have hwnote : w.note = v.note := by rw [← hw']; exact (hf v).1
        rw [hwnote]
        exact hlook
      · rw [List.getElem?_set_ne (fun h => hie h.symm)] at hw'
        have h3 := w3 i hi
        rw [voiceOk_iff] at h3
        exact h3 w hw' hwrel
    · intro t ht
      refine timerOk_arena_release_mono s.arena _ _ t ?_ (w4 t ht)
      intro i u hu hurel
      by_cases hie : i = vid
      · subst hie
        rw [hu] at hv
        injection hv with hveq
        refine ⟨f v, List.getElem?_set_self hlt, ?_⟩
        rw [(hf v).2]
        rw [hveq] at hurel
        exact hurel
      · exact ⟨u, by rw [List.getElem?_set_ne (fun h => hie h.symm)]; exact hu, hurel⟩

theorem wf_initAudio (s : EngineState) (hw : Wf s) : Wf (initAudio s) := by
  unfold initAudio
  split
  · exact hw
  · exact hw

theorem wf_setReverbMix (s : EngineState) (m : ℚ) (hw : Wf s) : Wf (setReverbMix s m) := by
  unfold setReverbMix
  dsimp only
  split
  · exact hw
  · exact hw

theorem wf_setVolume (s : EngineState) (v : ℚ) (hw : Wf s) : Wf (setVolume s v) := by
  unfold setVolume
  dsimp only
  split
  · exact hw
  · exact hw

theorem wf_advanceTime (s : EngineState) (dt : ℚ) (hw : Wf s) : Wf (advanceTime s dt) := hw

theorem wf_clearLogs (s : EngineState) (hw : Wf s) : Wf (clearLogs s) := by
  obtain ⟨w1, w2, w3, w4, w5, w6, w7, w8⟩ := hw
  refine ⟨w1, w2, w3, ?_, ?_, w6.sublist (List.filter_sublist _), ?_, ?_⟩
  · intro t ht
    have ht1 := List.mem_filter.1 ht
    have h4 := w4 t ht1.1
    refine timerOk_dct_adjust s.arena s.delayedCaptureTimeouts [] t ?_ h4
    intro hp hm
    exfalso
    unfold timerOk at h4
    rw [hp] at h4
    dsimp only at h4
    have hc : (s.delayedCaptureTimeouts.contains t.id) = false := by simpa using ht1.2
    rw [h4] at hc
    exact Bool.noConfusion hc
  · intro t ht
    exact w5 t (List.mem_filter.1 ht).1
  · intro e he
    exact absurd he (List.not_mem_nil e)
  · exact Nat.zero_le 1000

theorem wf_stopNote (s : EngineState) (n : ℕ) (hw : Wf s) : Wf (stopNote s n) := by
  unfold stopNote
  cases h : lookupA s.active n with
  | none => exact hw
  | some vid => exact wf_releaseVoice _ _ _ (wf_addLog _ _ _ _ hw)

theorem wf_fireTimer (s : EngineState) (tid : ℕ) (hw : Wf s) : Wf (fireTimer s tid) := by
  unfold fireTimer
  cases hf : s.pending.find? (fun t => t.id = tid) with
  | none => exact hw
  | some t =>
    dsimp only
    have htmem : t ∈ s.pending := List.mem_of_find?_eq_some hf
    have hw1 : Wf { s with pending := s.pending.filter fun t' => t'.id ≠ tid } :=
      wf_pending_filter s _ hw
    cases hp : t.payload with
    | autoStop note vid =>
      dsimp only
      split
      · exact wf_releaseVoice _ _ _ hw1
      · exact hw1
    | cleanup note vid =>
      dsimp only
      have hrel : ∃ u, s.arena[vid]? = some u ∧ u.released = true := by
        have h4 := hw.2.2.2.1 t htmem
        unfold timerOk at h4
        rw [hp] at h4
        dsimp only at h4
        cases h2 : s.arena[vid]? with
        | none => rw [h2] at h4; exact Bool.noConfusion h4
        | some u => rw [h2] at h4; exact ⟨u, rfl, h4⟩
      obtain ⟨u, hu, hurel⟩ := hrel
      have hw2 : Wf (if lookupA s.active note = some vid then
          { s with pending := s.pending.filter fun t' => t'.id ≠ tid,
                   active := deleteKey s.active note }
        else { s with pending := s.pending.filter fun t' => t'.id ≠ tid }) := by
        split
        · next hcond =>
          obtain ⟨b1, b2, b3, b4, b5, b6, b7, b8⟩ := hw1
          refine ⟨pairwise_deleteKey _ _ b1, ?_, ?_, b4, b5, b6, b7, b8⟩
          · intro pr hpr
            exact b2 pr (mem_deleteKey _ _ _ hpr)
          · intro i hi
            rw [voiceOk_iff]
            intro w hw' hwrel
            have h3 := b3 i hi
            rw [voiceOk_iff] at h3
            have hlook := h3 w hw' hwrel
            by_cases hwn : w.note = note
            · exfalso
              rw [hwn] at hlook
              have hcond2 : lookupA s.active note = some vid := hcond
              rw [hlook] at hcond2
              injection hcond2 with hiv
              subst hiv
              rw [hu] at hw'
              injection hw' with huw
              rw [← huw] at hwrel
              rw [hurel] at hwrel
              exact Bool.noConfusion hwrel
            · rw [lookupA_deleteKey_ne _ _ _ hwn]
              exact hlook
        · exact hw1
      exact wf_arena_update _ vid _ (fun v => ⟨rfl, rfl⟩) hw2
    | delayedCapture =>
      dsimp only
      obtain ⟨b1, b2, b3, b4, b5, b6, b7, b8⟩ := hw1
      refine ⟨b1, b2, b3, ?_, b5, b6, ?_, ?_⟩
      · intro t' ht'
        have h4 := b4 t' ht'
        refine timerOk_dct_adjust _ _ _ _ ?_ h4
        intro hp' hm
        have ht'2 : t'.id ≠ tid := by
          have := (List.mem_filter.1 ht').2
          simpa using this
        exact List.mem_filter.2 ⟨hm, by simpa using ht'2⟩
      · intro e he
        obtain ⟨e0, he0, hmapped⟩ := List.mem_map.1 he
        have h7 := b7 e0 he0
        have htid : e.delayedCaptureTimeoutId = e0.delayedCaptureTimeoutId := by
          rw [← hmapped]
          split <;> rfl
        unfold logTidOk at h7 ⊢
        rw [htid]
        exact h7
      · simpa using b8

/-- Every voice currently registered in the map under note `n` is released:
the condition under which `playNote` may insert a fresh voice for `n` without
creating a second unreleased voice on the same note. -/
def NoteReleased (s : EngineState) (n : ℕ) : Prop :=
  ∀ vid u, lookupA s.active n = some vid → s.arena[vid]? = some u → u.released = true

theorem releaseVoice_released_persists (s : EngineState) (m vid i : ℕ) (u' : Voice)
    (hafter : (releaseVoice s m vid).arena[i]? = some u')
    (hbefore : ∀ u, s.arena[i]? = some u → u.released = true) : u'.released = true := by
  by_cases hie : i = vid
  · subst hie
    cases hv : s.arena[i]? with
    | none =>
      rw [releaseVoice_no_voice _ _ _ hv] at hafter
      rw [hv] at hafter
      exact Option.noConfusion hafter
    | some v =>
      cases hinit : s.initialized with
      | false =>
        rw [releaseVoice_not_init _ _ _ hinit] at hafter
        rw [hv] at hafter
        injection hafter with h
        rw [← h]
        exact hbefore v hv
      | true =>
        cases hrel : v.released with
        | true =>
          rw [releaseVoice_released _ _ _ _ hv hrel] at hafter
          rw [hv] at hafter
          injection hafter with h
          rw [← h]
          exact hrel
        | false =>
          rw [releaseVoice_eq _ _ _ _ hv hinit hrel] at hafter
          rw [List.getElem?_set_self (lt_length_of_getElem? _ _ _ hv)] at hafter
          injection hafter with h
          rw [← h]
  · rw [releaseVoice_arena_ne _ _ _ _ hie] at hafter
    exact hbefore u' hafter

theorem noteReleased_releaseVoice (s : EngineState) (n : ℕ) (m vid : ℕ)
    (h : NoteReleased s n) : NoteReleased (releaseVoice s m vid) n := by
  intro vid0 u' hlook hu'
  rw [releaseVoice_active] at hlook
  refine releaseVoice_released_persists s m vid vid0 u' hu' ?_
  intro u hu
  exact h vid0 u hlook hu

theorem noteReleased_addLog (s : EngineState) (n : ℕ) (ev : LogEvent) (mn mc : Option ℕ)
    (h : NoteReleased s n) : NoteReleased (addLog s ev mn mc) n := by
  intro vid0 u hlook hu
  rw [addLog_active] at hlook
  rw [addLog_arena] at hu
  exact h vid0 u hlook hu

/-- After the existing-voice release step of `playNote`, every map occupant of
the played note is released. -/
theorem noteReleased_after_first_step (s : EngineState) (n : ℕ)
    (hinit : s.initialized = true) :
    NoteReleased
      (match lookupA s.active n with
       | some vid => releaseVoice s n vid
       | none => s) n := by
  cases hlook : lookupA s.active n with
  | none =>
    intro vid0 u hl hu
    rw [hlook] at hl
    exact Option.noConfusion hl
  | some vid =>
    dsimp only
    intro vid0 u hl hu
    rw [releaseVoice_active, hlook] at hl
    injection hl with hl
    subst hl
    cases hv : s.arena[vid]? with
    | none =>
      rw [releaseVoice_no_voice _ _ _ hv, hv] at hu
      exact Option.noConfusion hu
    | some v =>
      cases hrel : v.released with
      | true =>
        rw [releaseVoice_released _ _ _ _ hv hrel, hv] at hu
        injection hu with hu
        rw [← hu]
        exact hrel
      | false =>
        rw [releaseVoice_eq _ _ _ _ hv hinit hrel,
          List.getElem?_set_self (lt_length_of_getElem? _ _ _ hv)] at hu
        injection hu with hu
        rw [← hu]

theorem noteReleased_stealIfNeeded (s1 : EngineState) (n : ℕ)
    (h : NoteReleased s1 n) : NoteReleased (stealIfNeeded s1) n := by
  unfold stealIfNeeded
  split
  · cases ho : oldestEntry s1 with
    | none => exact h
    | some pr =>
      obtain ⟨oldestNote, t0⟩ := pr
      dsimp only
      cases hl : lookupA s1.active oldestNote with
      | none => exact h
      | some oldVid =>
        exact noteReleased_releaseVoice _ _ _ _ (noteReleased_addLog _ _ _ _ _ h)
  · exact h

theorem wf_stealIfNeeded (s1 : EngineState) (hw : Wf s1) : Wf (stealIfNeeded s1) := by
  unfold stealIfNeeded
  split
  · cases ho : oldestEntry s1 with
    | none => exact hw
    | some pr =>
      obtain ⟨oldestNote, t0⟩ := pr
      dsimp only
      cases hl : lookupA s1.active oldestNote with
      | none => exact hw
      | some oldVid =>
        exact wf_releaseVoice _ _ _ (wf_addLog _ _ _ _ hw)
  · exact hw

/-- Inserting a freshly created (unreleased) voice for note `n` preserves
well-formedness, provided every current map occupant of `n` is released. -/
theorem wf_insert_voice (s : EngineState) (n : ℕ) (voice : Voice)
    (hnote : voice.note = n) (hA : NoteReleased s n) (hw : Wf s) (R : List Ramp) :
    Wf { s with
         arena := s.arena ++ [voice]
         active := setKey s.active n s.arena.length
         ramps := R } := by
  obtain ⟨w1, w2, w3, w4, w5, w6, w7, w8⟩ := hw
  refine ⟨pairwise_setKey _ _ _ w1, ?_, ?_, ?_, w5, w6, w7, w8⟩
  · intro pr hpr
    rcases mem_setKey _ _ _ _ hpr with h | h
    · subst h
      rw [entryOk_iff]
      exact ⟨voice, List.getElem?_concat_length _ _, hnote⟩
    · have h2 := w2 pr h
      rw [entryOk_iff] at h2 ⊢
      obtain ⟨u, hu, hun⟩ := h2
      exact ⟨u, by
        rw [List.getElem?_append_left (lt_length_of_getElem? _ _ _ hu)]
        exact hu, hun⟩
  · intro i hi
    simp only [List.length_append, List.length_singleton] at hi
    rw [voiceOk_iff]
    intro w hw' hwrel
    by_cases hie : i = s.arena.length
    · subst hie
      rw [List.getElem?_concat_length] at hw'
      injection hw' with hw'
      rw [← hw', hnote]
      exact lookupA_setKey_self _ _ _
    · have hilt : i < s.arena.length := by omega
      rw [List.getElem?_append_left hilt] at hw'
      have h3 := w3 i hilt
      rw [voiceOk_iff] at h3
      have hlook := h3 w hw' hwrel
      by_cases hwn : w.note = n
      · exfalso
        rw [hwn] at hlook
        have := hA i w hlook hw'
        rw [this] at hwrel
        exact Bool.noConfusion hwrel
      · rw [lookupA_setKey_ne _ _ _ _ hwn]
        exact hlook
  · intro t ht
    refine timerOk_arena_release_mono s.arena _ _ t ?_ (w4 t ht)
    intro i u hu hurel
    exact ⟨u, by
      rw [List.getElem?_append_left (lt_length_of_getElem? _ _ _ hu)]
      exact hu, hurel⟩

/-- Scheduling the auto-release safety-net timer and recording its id on the
new voice preserves well-formedness. -/
theorem wf_autostop_finish (s : EngineState) (n vid : ℕ) (dm : ℚ) (hw : Wf s) :
    Wf { s with
         nextTimerId := s.nextTimerId + 1
         pending := s.pending ++
           [({ id := s.nextTimerId, delayMs := dm, payload := TimerPayload.autoStop n vid } : Timer)]
         arena := updateVoice s.arena vid fun v => { v with autoStopId := some s.nextTimerId } } := by
  have hw2 := wf_arena_update s vid (fun v => { v with autoStopId := some s.nextTimerId })
    (fun v => ⟨rfl, rfl⟩) hw
  obtain ⟨b1, b2, b3, b4, b5, b6, b7, b8⟩ := hw2
  refine ⟨b1, b2, b3, ?_, ?_, ?_, ?_, b8⟩
  · intro t ht
    rcases List.mem_append.1 ht with h | h
    · exact timerOk_dct_adjust _ _ _ _ (fun _ hm => hm) (b4 t h)
    · rw [List.mem_singleton.1 h]
      simp [timerOk]
  · intro t ht
    rcases List.mem_append.1 ht with h | h
    · exact Nat.lt_succ_of_lt (b5 t h)
    · rw [List.mem_singleton.1 h]
      simp
  · refine List.pairwise_append.2 ⟨b6, List.pairwise_singleton _ _, ?_⟩
    intro a ha b hb
    rw [List.mem_singleton.1 hb]
    have h5 : a.id < s.nextTimerId := b5 a ha
    dsimp only
    omega
  · intro e he
    exact logTidOk_mono _ _ _ (Nat.le_succ _) (b7 e he)

theorem wf_playNoteCore (s2 : EngineState) (n : ℕ) (vel : ℚ) (hA : NoteReleased s2 n)
    (hw : Wf s2) : Wf (playNoteCore s2 n vel) := by
  unfold playNoteCore
  dsimp only
  have hw3 : Wf (voiceInsertState s2 n vel) :=
    wf_insert_voice s2 n (newVoice s2 n) rfl hA hw
      (s2.ramps ++ [Ramp.attack s2.arena.length s2.ctxTime (s2.ctxTime + piano.attack) (vel * (1/2))])
  have hw4 := wf_addLog _ LogEvent.noteOn (some n) none hw3
  exact wf_autostop_finish _ n s2.arena.length (autoReleaseDuration piano * 1000) hw4

theorem wf_playNote (s : EngineState) (n : ℕ) (vel : ℚ) (hw : Wf s) : Wf (playNote s n vel) := by
  unfold playNote
  cases hinit : s.initialized with
  | false => simp [hinit]; exact hw
  | true =>
    rw [if_neg (by simp : ¬ (true = false))]
    dsimp only
    have hA1 := noteReleased_after_first_step s n hinit
    have hw1 : Wf (match lookupA s.active n with
        | some vid => releaseVoice s n vid
        | none => s) := by
      cases hlook : lookupA s.active n with
      | none => exact hw
      | some vid => exact wf_releaseVoice _ _ _ hw
    exact wf_playNoteCore _ n vel
      (noteReleased_stealIfNeeded _ _ hA1)
      (wf_stealIfNeeded _ hw1)

theorem wf_stopAllBody (acc : EngineState) (pr : ℕ × ℕ) (hw : Wf acc) :
    Wf (stopAllBody acc pr) := by
  unfold stopAllBody
  refine wf_releaseVoice _ _ _ ?_
  cases hv : acc.arena[pr.2]? with
  | none => exact hw
  | some v =>
    dsimp only
    cases hc : v.cleanupTimeoutId with
    | none => exact hw
    | some cid =>
      dsimp only
      have h1 := wf_pending_filter acc (fun t => t.id ≠ cid) hw
      exact wf_arena_update { acc with pending := acc.pending.filter fun t => t.id ≠ cid }
        pr.2 _ (fun v => ⟨rfl, rfl⟩) h1

theorem wf_foldl_stopAllBody (l : List (ℕ × ℕ)) (acc : EngineState) (hw : Wf acc) :
    Wf (l.foldl stopAllBody acc) := by
  induction l generalizing acc with
  | nil => exact hw
  | cons hd tl ih => exact ih _ (wf_stopAllBody _ _ hw)

theorem wf_stopAll (s : EngineState) (hw : Wf s) : Wf (stopAll s) := by
  unfold stopAll
  exact wf_foldl_stopAllBody _ _ (wf_addLog _ _ _ _ hw)

/-- Every engine step preserves allocator well-formedness. -/
theorem wf_applyStep (s : EngineState) (st : Step) (hw : Wf s) : Wf (applyStep s st) := by
  cases st with
  | initA => exact wf_initAudio s hw
  | play n v => exact wf_playNote s n v hw
  | stop n => exact wf_stopNote s n hw
  | stopAllStep => exact wf_stopAll s hw
  | fire tid => exact wf_fireTimer s tid hw
  | clearL => exact wf_clearLogs s hw
  | setMix m => exact wf_setReverbMix s m hw
  | setVol v => exact wf_setVolume s v hw
  | advance dt => exact wf_advanceTime s dt hw

theorem wf_initialState : Wf initialState := by decide

/-- Every state reachable from the initial state is well-formed. -/
theorem wf_run (steps : List Step) : Wf (run initialState steps) := by
  suffices h : ∀ s, Wf s → Wf (run s steps) from h _ wf_initialState
  induction steps with
  | nil => intro s hw; exact hw
  | cons hd tl ih =>
    intro s hw
    exact ih _ (wf_applyStep s hd hw)

/-! ### Claim C5: releaseVoice is idempotent -/

/-- C5: `releaseVoice` is idempotent: when the voice's released flag is
already set, or when no audio context exists, the call is a complete no-op —
the whole engine state (logs, ramps, timers, allocator map, arena) is
returned unchanged. -/
theorem claim_C5_releaseVoice_idempotent (s : EngineState) (n vid : ℕ) (v : Voice)
    (h : (s.arena[vid]? = some v ∧ v.released = true) ∨ s.initialized = false) :
    releaseVoice s n vid = s := by
  rcases h with ⟨hv, hrel⟩ | hinit
  · exact releaseVoice_released s n vid v hv hrel
  · exact releaseVoice_not_init s n vid hinit

/-- A released voice sitting in its cleanup grace period. -/
def c5Voice : Voice :=
  { note := 60, startTime := 0, released := true, autoStopId := none,
    cleanupTimeoutId := some 4, releaseSeconds := 6/5 }

/-- An initialized engine holding one released voice. -/
def c5State : EngineState :=
  { initialState with
    initialized := true
    arena := [c5Voice]
    active := [(60, 0)]
    nextTimerId := 5 }

theorem claim_C5_witness : releaseVoice c5State 60 0 = c5State :=
  claim_C5_releaseVoice_idempotent c5State 60 0 c5Voice (Or.inl ⟨rfl, rfl⟩)

/-! ### Claim C9: complementary dry/wet gains -/

/-- C9: for every mix value in `[0,1]`, `setReverbMix` on an initialized
engine sets the dry gain to `1 - m` and the wet gain to `m`, so they sum to
1; the gains assigned at initial construction are complementary in the same
way. -/
theorem claim_C9_reverb_crossfade (s : EngineState) (m : ℚ)
    (hm0 : 0 ≤ m) (hm1 : m ≤ 1) :
    (s.initialized = true →
      (setReverbMix s m).dryGainValue = some (1 - m) ∧
      (setReverbMix s m).reverbGainValue = some m ∧
      ∃ d w, (setReverbMix s m).dryGainValue = some d ∧
        (setReverbMix s m).reverbGainValue = some w ∧ d + w = 1) ∧
    (s.initialized = false →
      (initAudio s).dryGainValue = some (1 - s.reverbMix) ∧
      (initAudio s).reverbGainValue = some s.reverbMix ∧
      ∃ d w, (initAudio s).dryGainValue = some d ∧
        (initAudio s).reverbGainValue = some w ∧ d + w = 1) := by
  constructor
  · intro hinit
    refine ⟨?_, ?_, 1 - m, m, ?_, ?_, by ring⟩ <;> simp [setReverbMix, hinit]
  · intro hinit
    refine ⟨?_, ?_, 1 - s.reverbMix, s.reverbMix, ?_, ?_, by ring⟩ <;>
      simp [initAudio, hinit]

theorem claim_C9_witness :
    (initialState.initialized = true →
      (setReverbMix initialState (1/4)).dryGainValue = some (1 - 1/4) ∧
      (setReverbMix initialState (1/4)).reverbGainValue = some (1/4) ∧
      ∃ d w, (setReverbMix initialState (1/4)).dryGainValue = some d ∧
        (setReverbMix initialState (1/4)).reverbGainValue = some w ∧ d + w = 1) ∧
    (initialState.initialized = false →
      (initAudio initialState).dryGainValue = some (1 - initialState.reverbMix) ∧
      (initAudio initialState).reverbGainValue = some initialState.reverbMix ∧
      ∃ d w, (initAudio initialState).dryGainValue = some d ∧
        (initAudio initialState).reverbGainValue = some w ∧ d + w = 1) :=
  claim_C9_reverb_crossfade initialState (1/4) (by norm_num) (by norm_num)

/-! ### Claim C7: the auto-release safety net -/

theorem voiceInsertState_initialized (s2 : EngineState) (n : ℕ) (vel : ℚ) :
    (voiceInsertState s2 n vel).initialized = s2.initialized := rfl

theorem voiceInsertState_logs (s2 : EngineState) (n : ℕ) (vel : ℚ) :
    (voiceInsertState s2 n vel).logs = s2.logs := rfl

/-- An active `releaseVoice` (and an already-released one) leaves the voice
released. -/
theorem releaseVoice_marks (s : EngineState) (n vid : ℕ) (v : Voice)
    (hv : s.arena[vid]? = some v) (hinit : s.initialized = true) :
    ((releaseVoice s n vid).arena[vid]?).map Voice.released = some true := by
  cases hrel : v.released with
  | true =>
    rw [releaseVoice_released _ _ _ _ hv hrel, hv]
    simp [hrel]
  | false =>
    rw [releaseVoice_eq _ _ _ _ hv hinit hrel]
    dsimp only
    rw [List.getElem?_set_self (lt_length_of_getElem? _ _ _ hv)]
    rfl

/-- C7: every voice created by `playNote` schedules an auto-release timer of
`min(8s, max(4s, 2×decay + 2×release + 1s))` and records its id; when that
timer fires it force-releases the voice if it is still unreleased and still
occupies its map slot, and does nothing else otherwise; `releaseVoice`
cancels the pending auto-stop timer and clears the id from the voice. -/
theorem claim_C7_auto_release :
    (∀ p : InstrumentPreset,
      autoReleaseDuration p = min 8 (max 4 (2 * p.decay + 2 * p.release + 1))) ∧
    (∀ (s2 : EngineState) (n : ℕ) (vel : ℚ), s2.initialized = true → s2.logs.length < 1000 →
      ({ id := s2.nextTimerId + 1, delayMs := autoReleaseDuration piano * 1000,
         payload := TimerPayload.autoStop n s2.arena.length } : Timer) ∈
        (playNoteCore s2 n vel).pending ∧
      ((playNoteCore s2 n vel).arena[s2.arena.length]?).map Voice.autoStopId =
        some (some (s2.nextTimerId + 1))) ∧
    (∀ (s : EngineState) (tid : ℕ) (dm : ℚ) (note vid : ℕ) (v : Voice),
      s.pending.find? (fun t => t.id = tid) =
        some ⟨tid, dm, TimerPayload.autoStop note vid⟩ →
      s.initialized = true →
      (lookupA s.active note = some vid → s.arena[vid]? = some v → v.released = false →
        ((fireTimer s tid).arena[vid]?).map Voice.released = some true) ∧
      (lookupA s.active note ≠ some vid →
        fireTimer s tid = { s with pending := s.pending.filter fun t' => t'.id ≠ tid }) ∧
      (lookupA s.active note = some vid → s.arena[vid]? = some v → v.released = true →
        fireTimer s tid = { s with pending := s.pending.filter fun t' => t'.id ≠ tid })) ∧
    (∀ (s : EngineState) (n vid : ℕ) (v : Voice) (aid : ℕ),
      s.arena[vid]? = some v → s.initialized = true → v.released = false →
      v.autoStopId = some aid → aid ≤ s.nextTimerId →
      ((releaseVoice s n vid).pending.all fun t => t.id ≠ aid) = true ∧
      ((releaseVoice s n vid).arena[vid]?).map Voice.autoStopId = some none) := by
  refine ⟨?_, ?_, ?_, ?_⟩
  · intro p
    unfold autoReleaseDuration
    ring_nf
  · intro s2 n vel hinit2 hlen2
    unfold playNoteCore
    dsimp only
    have hnid : (addLog (voiceInsertState s2 n vel) LogEvent.noteOn (some n) none).nextTimerId
        = s2.nextTimerId + 1 := by
      rw [addLog_nextTimerId _ _ _ _ (by rw [voiceInsertState_initialized]; exact hinit2)]
      rfl
    constructor
    · refine List.mem_append.2 (Or.inr ?_)
      rw [List.mem_singleton, hnid]
    · have harena : (addLog (voiceInsertState s2 n vel) LogEvent.noteOn (some n) none).arena
          = s2.arena ++ [newVoice s2 n] := by
        rw [addLog_arena]
        rfl
      rw [harena, hnid]
      unfold updateVoice
      rw [List.getElem?_concat_length]
      dsimp only
      rw [List.getElem?_set_self (by simp)]
      rfl
  · intro s tid dm note vid v ht hinit
    refine ⟨?_, ?_, ?_⟩
    · intro hlook hv hrel
      unfold fireTimer
      rw [ht]
      dsimp only
      split
      · exact releaseVoice_marks _ note vid v hv hinit
      · next hcond => exact absurd hlook hcond
    · intro hlookne
      unfold fireTimer
      rw [ht]
      dsimp only
      split
      · next hcond => exact absurd hcond hlookne
      · rfl
    · intro hlook hv hrel
      unfold fireTimer
      rw [ht]
      dsimp only
      split
      · exact releaseVoice_released _ _ _ v hv hrel
      · next hcond => exact absurd hlook hcond
  · intro s n vid v aid hv hinit hrel haid hle
    rw [releaseVoice_eq _ _ _ _ hv hinit hrel]
    dsimp only
    constructor
    · rw [List.all_append, Bool.and_eq_true]
      constructor
      · rw [List.all_eq_true]
        intro t ht
        have ht1 := (List.mem_filter.1 ht).1
        rw [haid] at ht1
        dsimp only at ht1
        have := (List.mem_filter.1 ht1).2
        simpa using this
      · have hA : (addLog { s with arena := s.arena.set vid { v with released := true } }
            LogEvent.voiceRelease (some n) none).nextTimerId = s.nextTimerId + 1 := by
          rw [addLog_nextTimerId _ _ _ _ (by exact hinit)]
        simp only [List.all_cons, List.all_nil, Bool.and_true]
        rw [hA]
        simp only [decide_eq_true_eq]
        omega
    · rw [List.getElem?_set_self (lt_length_of_getElem? _ _ _ hv)]
      rfl

/-- An initialized engine holding one unreleased voice with a pending
auto-stop timer. -/
def c7Voice : Voice :=
  { note := 60, startTime := 0, released := false, autoStopId := some 1,
    cleanupTimeoutId := none, releaseSeconds := 6/5 }

def c7State : EngineState :=
  { initialState with
    initialized := true
    arena := [c7Voice]
    active := [(60, 0)]
    nextTimerId := 2
    pending := [({ id := 1, delayMs := 5000, payload := TimerPayload.autoStop 60 0 } : Timer)] }

theorem claim_C7_witness :
    autoReleaseDuration piano = min 8 (max 4 (2 * piano.decay + 2 * piano.release + 1)) ∧
    (({ id := c7State.nextTimerId + 1, delayMs := autoReleaseDuration piano * 1000,
        payload := TimerPayload.autoStop 72 c7State.arena.length } : Timer) ∈
      (playNoteCore c7State 72 (4/5)).pending ∧
     ((playNoteCore c7State 72 (4/5)).arena[c7State.arena.length]?).map Voice.autoStopId =
       some (some (c7State.nextTimerId + 1))) ∧
    ((fireTimer c7State 1).arena[0]?).map Voice.released = some true ∧
    (((releaseVoice c7State 60 0).pending.all fun t => t.id ≠ 1) = true ∧
     ((releaseVoice c7State 60 0).arena[0]?).map Voice.autoStopId = some none) := by
  obtain ⟨h1, h2, h3, h4⟩ := claim_C7_auto_release
  refine ⟨h1 piano, h2 c7State 72 (4/5) rfl (by decide), ?_,
    h4 c7State 60 0 c7Voice 1 rfl rfl rfl rfl (by decide)⟩
  exact (h3 c7State 1 5000 60 0 c7Voice (by decide) rfl).1 (by decide) rfl rfl

/-! ### Claim C6: the 1000-entry diagnostics ring -/

/-- C6: after any `addLog` the ring holds at most 1000 entries; pushing past
the limit evicts exactly the oldest entry (FIFO) and cancels that entry's
delayed-capture timer, so its delayed snapshot can no longer fire. -/
theorem claim_C6_log_ring_bound (s : EngineState) (ev : LogEvent) (mn mc : Option ℕ)
    (hw : Wf s) (hinit : s.initialized = true) :
    (addLog s ev mn mc).logs.length ≤ 1000 ∧
    (∀ e rest, s.logs = e :: rest → s.logs.length = 1000 →
      (addLog s ev mn mc).logs = rest ++ [newLogEntry s ev mn mc] ∧
      (∀ rid, e.delayedCaptureTimeoutId = some rid →
        ((addLog s ev mn mc).pending.all fun t => t.id ≠ rid) = true ∧
        fireTimer (addLog s ev mn mc) rid = addLog s ev mn mc)) := by
  constructor
  · exact (wf_addLog s ev mn mc hw).2.2.2.2.2.2.2
  · intro e rest hlogs hlen
    have hle : 1000 ≤ s.logs.length := Nat.le_of_eq hlen.symm
    cases hrid0 : e.delayedCaptureTimeoutId with
    | none =>
      rw [addLog_evict_none _ _ _ _ hinit e rest hlogs hle hrid0]
      refine ⟨rfl, ?_⟩
      intro rid hrid
      exact Option.noConfusion hrid
    | some rid0 =>
      rw [addLog_evict _ _ _ _ hinit e rest hlogs hle rid0 hrid0]
      refine ⟨rfl, ?_⟩
      intro rid hrid
      injection hrid with hrid
      subst hrid
      have hall : (((s.pending ++ [dcTimer s]).filter fun t => t.id ≠ rid0).all
          fun t => t.id ≠ rid0) = true := by
        rw [List.all_eq_true]
        intro t ht
        exact (List.mem_filter.1 ht).2
      refine ⟨hall, ?_⟩
      have hfind : (((s.pending ++ [dcTimer s]).filter fun t => t.id ≠ rid0).find?
          fun t => t.id = rid0) = none := by
        rw [List.find?_eq_none]
        intro t ht
        have := (List.mem_filter.1 ht).2
        simpa using this
      unfold fireTimer
      dsimp only
      rw [hfind]

/-- A minimal log entry as found in a full ring. -/
def c6Entry (i : ℕ) : LogEntry :=
  { timestamp := 0, event := LogEvent.noteOn, midiNote := none, messageCount := none,
    activeVoiceCount := 0, immediate := [], delayed := none,
    delayedCaptureTimeoutId := some i }

def c6Rest : List LogEntry := (List.range 999).map fun i => c6Entry (i + 1)

/-- An initialized engine whose ring already holds exactly 1000 entries. -/
def c6State : EngineState :=
  { initialState with
    initialized := true
    logs := c6Entry 0 :: c6Rest
    nextTimerId := 1000 }

theorem c6State_wf : Wf c6State := by
  refine ⟨List.Pairwise.nil, ?_, ?_, ?_, ?_, List.Pairwise.nil, ?_, ?_⟩
  · intro pr hpr
    exact absurd hpr (List.not_mem_nil pr)
  · intro vid hvid
    simp [c6State, initialState] at hvid
  · intro t ht
    exact absurd ht (List.not_mem_nil t)
  · intro t ht
    exact absurd ht (List.not_mem_nil t)
  · intro e he
    have he2 : e ∈ c6Entry 0 :: c6Rest := he
    rcases List.mem_cons.1 he2 with h | h
    · subst h
      decide
    · rw [c6Rest] at h
      obtain ⟨i, hi, hei⟩ := List.mem_map.1 h
      subst hei
      have hilt : i < 999 := List.mem_range.1 hi
      have : (c6Entry (i + 1)).delayedCaptureTimeoutId = some (i + 1) := rfl
      unfold logTidOk
      rw [this]
      simp only [decide_eq_true_eq]
      show i + 1 < c6State.nextTimerId
      have hnid : c6State.nextTimerId = 1000 := rfl
      omega
  · show (c6Entry 0 :: c6Rest).length ≤ 1000
    simp [c6Rest]

theorem c6State_logs_len : c6State.logs.length = 1000 := by
  show (c6Entry 0 :: c6Rest).length = 1000
  simp [c6Rest]

theorem claim_C6_witness :
    (addLog c6State LogEvent.noteOff none none).logs.length ≤ 1000 ∧
    (addLog c6State LogEvent.noteOff none none).logs =
      c6Rest ++ [newLogEntry c6State LogEvent.noteOff none none] ∧
    ((addLog c6State LogEvent.noteOff none none).pending.all fun t => t.id ≠ 0) = true ∧
    fireTimer (addLog c6State LogEvent.noteOff none none) 0 =
      addLog c6State LogEvent.noteOff none none := by
  obtain ⟨h1, h2⟩ := claim_C6_log_ring_bound c6State LogEvent.noteOff none none
    c6State_wf rfl
  have h3 := h2 (c6Entry 0) c6Rest rfl c6State_logs_len
  exact ⟨h1, h3.1, (h3.2 0 rfl).1, (h3.2 0 rfl).2⟩

/-- Firing a timer id with no pending timer is a no-op. -/
theorem fireTimer_not_pending (s : EngineState) (tid : ℕ)
    (hno : ∀ t ∈ s.pending, t.id ≠ tid) : fireTimer s tid = s := by
  unfold fireTimer
  have hfind : (s.pending.find? fun t => t.id = tid) = none := by
    rw [List.find?_eq_none]
    intro t ht
    have := hno t ht
    simpa using this
  rw [hfind]

/-! ### Claim C2: immediate and delayed log snapshots -/

/-- C2 (amended): `addLog` captures an immediate snapshot and schedules a
50ms delayed-capture timer whose firing attaches the delayed snapshot to the
same entry — but the delayed capture only happens while its timer is still
pending: an active `releaseVoice` cancels every pending delayed-capture
timer, and firing a cancelled timer id is a no-op. -/
theorem claim_C2_delayed_capture :
    (∀ (s : EngineState) (ev : LogEvent) (mn mc : Option ℕ),
      Wf s → s.initialized = true → s.logs.length < 1000 →
      (addLog s ev mn mc).logs = s.logs ++ [newLogEntry s ev mn mc] ∧
      (newLogEntry s ev mn mc).immediate = snapshotAll s ∧
      (newLogEntry s ev mn mc).delayed = none ∧
      (newLogEntry s ev mn mc).delayedCaptureTimeoutId = some s.nextTimerId ∧
      dcTimer s ∈ (addLog s ev mn mc).pending ∧
      (fireTimer (addLog s ev mn mc) s.nextTimerId).logs =
        s.logs ++ [{ newLogEntry s ev mn mc with
          delayed := some (snapshotAll (addLog s ev mn mc)) }]) ∧
    (∀ (s : EngineState) (n vid : ℕ) (v : Voice),
      Wf s → s.arena[vid]? = some v → s.initialized = true → v.released = false →
      ((releaseVoice s n vid).pending.all
        fun t => t.payload ≠ TimerPayload.delayedCapture) = true) ∧
    (∀ (s : EngineState) (tid : ℕ), (∀ t ∈ s.pending, t.id ≠ tid) →
      fireTimer s tid = s) := by
  refine ⟨?_, ?_, ?_⟩
  · intro s ev mn mc hw hinit hlen
    obtain ⟨w1, w2, w3, w4, w5, w6, w7, w8⟩ := hw
    rw [addLog_push s ev mn mc hinit hlen]
    refine ⟨rfl, rfl, rfl, rfl,
      List.mem_append.2 (Or.inr (List.mem_singleton.2 rfl)), ?_⟩
    unfold fireTimer
    dsimp only
    have hfind : ((s.pending ++ [dcTimer s]).find? fun t => t.id = s.nextTimerId)
        = some (dcTimer s) := by
      rw [List.find?_append]
      have h1 : (s.pending.find? fun t => t.id = s.nextTimerId) = none := by
        rw [List.find?_eq_none]
        intro t ht
        have := w5 t ht
        simp only [decide_eq_true_eq]
        omega
      rw [h1]
      simp [dcTimer]
    rw [hfind]
    dsimp only [dcTimer]
    rw [List.map_append]
    have hself : (s.logs.map fun e =>
        if e.delayedCaptureTimeoutId = some s.nextTimerId
        then { e with delayed := some (snapshotAll
          { s with nextTimerId := s.nextTimerId + 1,
                   pending := (s.pending ++
                     [({ id := s.nextTimerId, delayMs := 50,
                         payload := TimerPayload.delayedCapture } : Timer)]).filter
                     fun t' => t'.id ≠ s.nextTimerId,
                   delayedCaptureTimeouts := s.delayedCaptureTimeouts ++ [s.nextTimerId],
                   logs := s.logs ++ [newLogEntry s ev mn mc] }) }
        else e) = s.logs := by
      conv_rhs => rw [← List.map_id s.logs]
      refine List.map_congr_left ?_
      intro e he
      have h7 := w7 e he
      unfold logTidOk at h7
      cases htid : e.delayedCaptureTimeoutId with
      | none => simp [htid]
      | some t =>
        rw [htid] at h7
        simp only [decide_eq_true_eq] at h7
        have : ¬ (some t = some s.nextTimerId) := by
          intro hc
          injection hc with hc
          omega
        simp [htid, this]
    rw [hself]
    simp only [List.map_cons, List.map_nil]
    have hcond : (newLogEntry s ev mn mc).delayedCaptureTimeoutId = some s.nextTimerId := rfl
    rw [if_pos hcond]
    rfl
  · intro s n vid v hw hv hinit hrel
    have hwA : Wf (addLog { s with arena := s.arena.set vid { v with released := true } }
        LogEvent.voiceRelease (some n) none) :=
      wf_addLog _ _ _ _ (wf_release_marked s vid v hv hrel hw)
    have h4A := hwA.2.2.2.1
    rw [releaseVoice_eq _ _ _ _ hv hinit hrel]
    dsimp only
    rw [List.all_append, Bool.and_eq_true]
    constructor
    · rw [List.all_eq_true]
      intro t ht
      have ht2 := List.mem_filter.1 ht
      have hcont : ((addLog { s with arena := s.arena.set vid { v with released := true } }
          LogEvent.voiceRelease (some n) none).delayedCaptureTimeouts.contains t.id) = false := by
        simpa using ht2.2
      have htA : t ∈ (addLog { s with arena := s.arena.set vid { v with released := true } }
          LogEvent.voiceRelease (some n) none).pending := by
        have h1 := ht2.1
        cases hasid : v.autoStopId with
        | some aid =>
          rw [hasid] at h1
          exact (List.mem_filter.1 h1).1
        | none =>
          rw [hasid] at h1
          exact h1
      have h4 := h4A t htA
      simp only [decide_eq_true_eq]
      intro hdc
      unfold timerOk at h4
      rw [hdc] at h4
      dsimp only at h4
      rw [h4] at hcont
      exact Bool.noConfusion hcont
    · simp
  · intro s tid hno
    exact fireTimer_not_pending s tid hno

/-- NOTE_ON at t=0 then NOTE_OFF in the same tick, then one second of idle
time: the NOTE_ON entry is still in the ring, the log was never cleared, yet
its delayed capture was cancelled by the release. -/
def c2Trace : List Step :=
  [Step.initA, Step.play 60 (4/5), Step.stop 60, Step.advance 1]

def c2Final : EngineState := run initialState c2Trace

theorem claim_C2_counterexample :
    (c2Final.logs.map fun e => (e.event, e.delayed, e.delayedCaptureTimeoutId)) =
      [(LogEvent.noteOn, none, some 0), (LogEvent.noteOff, none, some 2),
       (LogEvent.voiceRelease, none, some 3)] ∧
    c2Final.pending.map Timer.id = [4] ∧
    fireTimer c2Final 0 = c2Final := by
  refine ⟨by decide, by decide, fireTimer_not_pending c2Final 0 (by decide)⟩

theorem claim_C2_witness :
    ((addLog (initAudio initialState) LogEvent.noteOn none none).logs =
      (initAudio initialState).logs ++
        [newLogEntry (initAudio initialState) LogEvent.noteOn none none] ∧
     (newLogEntry (initAudio initialState) LogEvent.noteOn none none).immediate =
       snapshotAll (initAudio initialState) ∧
     (newLogEntry (initAudio initialState) LogEvent.noteOn none none).delayed = none ∧
     (newLogEntry (initAudio initialState) LogEvent.noteOn none none).delayedCaptureTimeoutId =
       some (initAudio initialState).nextTimerId ∧
     dcTimer (initAudio initialState) ∈
       (addLog (initAudio initialState) LogEvent.noteOn none none).pending ∧
     (fireTimer (addLog (initAudio initialState) LogEvent.noteOn none none)
         (initAudio initialState).nextTimerId).logs =
       (initAudio initialState).logs ++
         [{ newLogEntry (initAudio initialState) LogEvent.noteOn none none with
            delayed := some (snapshotAll
              (addLog (initAudio initialState) LogEvent.noteOn none none)) }]) ∧
    ((releaseVoice c7State 60 0).pending.all
      fun t => t.payload ≠ TimerPayload.delayedCapture) = true ∧
    fireTimer initialState 7 = initialState := by
  obtain ⟨h1, h2, h3⟩ := claim_C2_delayed_capture
  exact ⟨h1 (initAudio initialState) LogEvent.noteOn none none (by decide) rfl (by decide),
    h2 c7State 60 0 c7Voice (by decide) rfl rfl rfl,
    h3 initialState 7 (by intro t ht; exact absurd ht (List.not_mem_nil t))⟩

/-! ### Claim C3: stopAll and the already-released voice -/

/-- Play note 60, let its delayed capture fire, release it with `stopNote`,
then call `stopAll` 0.1s later — while the released voice's 1.35s cleanup
timer is still pending — and finally fire the one remaining timer (the
STOP_ALL delayed capture). -/
def c3Trace : List Step :=
  [Step.initA, Step.play 60 (4/5), Step.fire 0, Step.advance (1/2), Step.stop 60,
   Step.advance (1/10), Step.stopAllStep, Step.fire 5]

def c3Final : EngineState := run initialState c3Trace

/-- C3 evaluated at the failing input: `stopAll` cancels the released voice's
pending cleanup timer and then `releaseVoice` no-ops on it, so after every
timer has elapsed (none is pending) the voice is still in the map and the
active-voice count is 1, not 0.  The STOP_ALL entry itself is logged once
with the pre-call count. -/
theorem claim_C3_stopAll_leak :
    c3Final.active = [(60, 0)] ∧
    c3Final.active.length = 1 ∧
    c3Final.pending = [] ∧
    (c3Final.arena.map fun v => (v.note, v.released, v.cleanupTimeoutId, v.autoStopId)) =
      [(60, true, none, none)] ∧
    (c3Final.logs.map fun e => (e.event, e.messageCount)) =
      [(LogEvent.noteOn, none), (LogEvent.noteOff, none),
       (LogEvent.voiceRelease, none), (LogEvent.stopAllEvt, some 1)] := by
  refine ⟨by decide, by decide, by decide, by decide, by decide⟩

/-! ### The stealing scan: provenance and minimality -/

theorem oldestStep_eq_or (ar : List Voice) (acc : Option (ℕ × ℚ)) (pr : ℕ × ℕ) :
    oldestStep ar acc pr = acc ∨
    ∃ v, ar[pr.2]? = some v ∧ oldestStep ar acc pr = some (pr.1, v.startTime) := by
  unfold oldestStep
  cases hv : ar[pr.2]? with
  | none => exact Or.inl rfl
  | some v =>
    dsimp only
    cases acc with
    | none => exact Or.inr ⟨v, rfl, rfl⟩
    | some b =>
      obtain ⟨bn, bt⟩ := b
      dsimp only
      by_cases h : v.startTime < bt
      · exact Or.inr ⟨v, rfl, by rw [if_pos h]⟩
      · exact Or.inl (by rw [if_neg h])

theorem oldestFold_provenance (ar : List Voice) (l : List (ℕ × ℕ)) (acc : Option (ℕ × ℚ)) :
    l.foldl (oldestStep ar) acc = acc ∨
    ∃ pr ∈ l, ∃ v, ar[pr.2]? = some v ∧
      l.foldl (oldestStep ar) acc = some (pr.1, v.startTime) := by
  induction l generalizing acc with
  | nil => exact Or.inl rfl
  | cons hd tl ih =>
    rw [List.foldl_cons]
    rcases ih (oldestStep ar acc hd) with h | h
    · rcases oldestStep_eq_or ar acc hd with h2 | ⟨v, hv, h2⟩
      · exact Or.inl (by rw [h, h2])
      · exact Or.inr ⟨hd, List.mem_cons_self _ _, v, hv, by rw [h, h2]⟩
    · obtain ⟨pr, hpr, v, hv, he⟩ := h
      exact Or.inr ⟨pr, List.mem_cons_of_mem _ hpr, v, hv, he⟩

theorem oldestFold_acc_le (ar : List Voice) (l : List (ℕ × ℕ)) :
    ∀ (bn : ℕ) (bt : ℚ) (n0 : ℕ) (t0 : ℚ),
      l.foldl (oldestStep ar) (some (bn, bt)) = some (n0, t0) → t0 ≤ bt := by
  induction l with
  | nil =>
    intro bn bt n0 t0 hf
    rw [List.foldl_nil] at hf
    injection hf with hf
    cases hf
    exact le_refl bt
  | cons hd tl ih =>
    intro bn bt n0 t0 hf
    rw [List.foldl_cons] at hf
    unfold oldestStep at hf
    cases hv : ar[hd.2]? with
    | none =>
      rw [hv] at hf
      exact ih bn bt n0 t0 hf
    | some v =>
      rw [hv] at hf
      dsimp only at hf
      by_cases h : v.startTime < bt
      · rw [if_pos h] at hf
        have h1 := ih hd.1 v.startTime n0 t0 hf
        linarith
      · rw [if_neg h] at hf
        exact ih bn bt n0 t0 hf

theorem oldestFold_min (ar : List Voice) (l : List (ℕ × ℕ)) :
    ∀ (acc : Option (ℕ × ℚ)) (n0 : ℕ) (t0 : ℚ),
      l.foldl (oldestStep ar) acc = some (n0, t0) →
      ∀ pr ∈ l, ∀ v, ar[pr.2]? = some v → t0 ≤ v.startTime := by
  induction l with
  | nil =>
    intro acc n0 t0 hf pr hpr
    exact absurd hpr (List.not_mem_nil pr)
  | cons hd tl ih =>
    intro acc n0 t0 hf pr hpr v hv
    rw [List.foldl_cons] at hf
    rcases List.mem_cons.1 hpr with h | h
    · subst h
      unfold oldestStep at hf
      rw [hv] at hf
      cases acc with
      | none =>
        dsimp only at hf
        exact oldestFold_acc_le ar tl pr.1 v.startTime n0 t0 hf
      | some b =>
        obtain ⟨bn, bt⟩ := b
        dsimp only at hf
        by_cases hlt : v.startTime < bt
        · rw [if_pos hlt] at hf
          exact oldestFold_acc_le ar tl pr.1 v.startTime n0 t0 hf
        · rw [if_neg hlt] at hf
          have h1 := oldestFold_acc_le ar tl bn bt n0 t0 hf
          push_neg at hlt
          linarith
    · exact ih _ n0 t0 hf pr h v hv

theorem oldestFold_some_of_acc_some (ar : List Voice) (l : List (ℕ × ℕ)) :
    ∀ b : ℕ × ℚ, ∃ r, l.foldl (oldestStep ar) (some b) = some r := by
  induction l with
  | nil => intro b; exact ⟨b, rfl⟩
  | cons hd tl ih =>
    intro b
    rw [List.foldl_cons]
    unfold oldestStep
    cases hv : ar[hd.2]? with
    | none => exact ih b
    | some v =>
      dsimp only
      obtain ⟨bn, bt⟩ := b
      dsimp only
      by_cases h : v.startTime < bt
      · rw [if_pos h]
        exact ih _
      · rw [if_neg h]
        exact ih _

theorem oldestEntry_isSome (s : EngineState) (hw : Wf s) (hne : s.active ≠ []) :
    ∃ n0 t0, oldestEntry s = some (n0, t0) := by
  obtain ⟨pr, rest, hl⟩ : ∃ pr rest, s.active = pr :: rest := by
    cases hc : s.active with
    | nil => exact absurd hc hne
    | cons a l => exact ⟨a, l, rfl⟩
  have h2 := hw.2.1 pr (by rw [hl]; exact List.mem_cons_self _ _)
  rw [entryOk_iff] at h2
  obtain ⟨v, hv, _⟩ := h2
  unfold oldestEntry
  rw [hl, List.foldl_cons]
  have hstep : oldestStep s.arena none pr = some (pr.1, v.startTime) := by
    unfold oldestStep
    rw [hv]
  rw [hstep]
  obtain ⟨r, hr⟩ := oldestFold_some_of_acc_some s.arena rest (pr.1, v.startTime)
  exact ⟨r.1, r.2, by rw [hr]⟩

/-- The entry selected by the stealing scan is a real map entry whose voice
has the smallest start time among all mapped voices. -/
theorem oldestEntry_spec (s : EngineState) (hw : Wf s) (n0 : ℕ) (t0 : ℚ)
    (h : oldestEntry s = some (n0, t0)) :
    ∃ vid0 v0, lookupA s.active n0 = some vid0 ∧ s.arena[vid0]? = some v0 ∧
      v0.startTime = t0 ∧
      ∀ pr ∈ s.active, ∀ v, s.arena[pr.2]? = some v → t0 ≤ v.startTime := by
  have hmin := oldestFold_min s.arena s.active none n0 t0 h
  rcases oldestFold_provenance s.arena s.active none with h1 | ⟨pr, hpr, v, hv, he⟩
  · unfold oldestEntry at h
    rw [h1] at h
    exact Option.noConfusion h
  · unfold oldestEntry at h
    rw [h] at he
    injection he with he
    have hpe := Prod.ext_iff.1 he
    dsimp only at hpe
    have hlook := lookupA_eq_some_of_mem s.active pr hw.1 hpr
    refine ⟨pr.2, v, ?_, hv, hpe.2.symm, hmin⟩
    rw [hpe.1]
    exact hlook

theorem setKey_of_lookup_none (l : List (ℕ × ℕ)) (n v : ℕ) (h : lookupA l n = none) :
    setKey l n v = l ++ [(n, v)] := by
  induction l with
  | nil => rfl
  | cons hd tl ih =>
    obtain ⟨k, w⟩ := hd
    by_cases hk : k = n
    · rw [lookupA, if_pos hk] at h
      exact Option.noConfusion h
    · rw [lookupA, if_neg hk] at h
      rw [setKey]
      rw [if_neg hk, ih h]
      rfl

/-! ### Components of playNoteCore -/

theorem playNoteCore_logs (s2 : EngineState) (n : ℕ) (vel : ℚ)
    (hinit2 : s2.initialized = true) (hlen2 : s2.logs.length < 1000) :
    (playNoteCore s2 n vel).logs =
      s2.logs ++ [newLogEntry (voiceInsertState s2 n vel) LogEvent.noteOn (some n) none] := by
  unfold playNoteCore
  dsimp only
  rw [addLog_push (voiceInsertState s2 n vel) LogEvent.noteOn (some n) none
    (by rw [voiceInsertState_initialized]; exact hinit2)
    (by rw [voiceInsertState_logs]; exact hlen2)]
  dsimp only
  rw [voiceInsertState_logs]

theorem playNoteCore_active (s2 : EngineState) (n : ℕ) (vel : ℚ) :
    (playNoteCore s2 n vel).active = setKey s2.active n s2.arena.length := by
  unfold playNoteCore
  dsimp only
  rw [addLog_active]
  rfl

theorem playNoteCore_arena_old (s2 : EngineState) (n : ℕ) (vel : ℚ) (i : ℕ)
    (hi : i < s2.arena.length) :
    (playNoteCore s2 n vel).arena[i]? = s2.arena[i]? := by
  unfold playNoteCore
  dsimp only
  unfold updateVoice
  have harena : (addLog (voiceInsertState s2 n vel) LogEvent.noteOn (some n) none).arena
      = s2.arena ++ [newVoice s2 n] := by
    rw [addLog_arena]
    rfl
  rw [harena, List.getElem?_concat_length]
  dsimp only
  rw [List.getElem?_set_ne (by omega), List.getElem?_append_left hi]

theorem playNoteCore_arena_new (s2 : EngineState) (n : ℕ) (vel : ℚ)
    (hinit2 : s2.initialized = true) :
    (playNoteCore s2 n vel).arena[s2.arena.length]? =
      some { newVoice s2 n with autoStopId := some (s2.nextTimerId + 1) } := by
  unfold playNoteCore
  dsimp only
  unfold updateVoice
  have harena : (addLog (voiceInsertState s2 n vel) LogEvent.noteOn (some n) none).arena
      = s2.arena ++ [newVoice s2 n] := by
    rw [addLog_arena]
    rfl
  have hnid : (addLog (voiceInsertState s2 n vel) LogEvent.noteOn (some n) none).nextTimerId
      = s2.nextTimerId + 1 := by
    rw [addLog_nextTimerId _ _ _ _ (by rw [voiceInsertState_initialized]; exact hinit2)]
    rfl
  rw [harena, hnid, List.getElem?_concat_length]
  dsimp only
  rw [List.getElem?_set_self (by simp)]

/-! ### Claim C10: released voices count toward the ceiling and can be stolen -/

/-- C10: the polyphony check and the oldest-first scan range over the entire
map including released voices: with the map at or above `MAX_POLYPHONY` and
its oldest entry already released, `playNote` on a fresh note logs a
VOICE_STEAL for that released voice but no VOICE_RELEASE (the release call
no-ops), leaves the released voice's record untouched, and grows the map by
one entry. -/
theorem claim_C10_steal_counts_released (s : EngineState) (n : ℕ) (vel : ℚ)
    (n0 vid0 : ℕ) (t0 : ℚ) (v0 : Voice)
    (hinit : s.initialized = true)
    (hfresh : lookupA s.active n = none)
    (hlen : MAX_POLYPHONY ≤ s.active.length)
    (hold : oldestEntry s = some (n0, t0))
    (holdv : lookupA s.active n0 = some vid0)
    (hv0 : s.arena[vid0]? = some v0)
    (hrel : v0.released = true)
    (hlogs : s.logs.length ≤ 997) :
    ((playNote s n vel).logs.drop s.logs.length).map (fun e => (e.event, e.midiNote)) =
      [(LogEvent.voiceSteal, some n0), (LogEvent.noteOn, some n)] ∧
    (playNote s n vel).arena[vid0]? = some v0 ∧
    (playNote s n vel).active.length = s.active.length + 1 := by
  unfold playNote
  rw [if_neg (show ¬ (s.initialized = false) by rw [hinit]; simp)]
  dsimp only
  rw [hfresh]
  dsimp only
  unfold stealIfNeeded
  rw [if_pos hlen, hold]
  dsimp only
  rw [holdv]
  dsimp only
  have hlen1 : s.logs.length < 1000 := by omega
  rw [releaseVoice_released (addLog s LogEvent.voiceSteal (some n0) none) n0 vid0 v0
    (by rw [addLog_arena]; exact hv0) hrel]
  rw [addLog_push s LogEvent.voiceSteal (some n0) none hinit hlen1]
  refine ⟨?_, ?_, ?_⟩
  · rw [playNoteCore_logs _ n vel (by exact hinit)
      (by exact (by simp only [List.length_append, List.length_singleton]; omega :
        (s.logs ++ [newLogEntry s LogEvent.voiceSteal (some n0) none]).length < 1000))]
    dsimp only
    rw [List.append_assoc, List.drop_left]
    rfl
  · rw [playNoteCore_arena_old _ n vel vid0 (by exact lt_length_of_getElem? _ _ _ hv0)]
    exact hv0
  · rw [playNoteCore_active]
    dsimp only
    rw [setKey_of_lookup_none _ _ _ hfresh]
    simp

/-- A bookkeeping-only voice record for concrete test states. -/
def testVoice (note : ℕ) (t : ℚ) (rel : Bool) : Voice :=
  { note := note
    startTime := t
    released := rel
    autoStopId := none
    cleanupTimeoutId := none
    releaseSeconds := 6/5 }

/-- 24 voices on notes 36..59, voice `i` created at time `i`; voice 0 (the
oldest) has `released = rel0`. -/
def polyArena (rel0 : Bool) : List Voice :=
  (List.range 24).map (fun i => testVoice (36 + i) i (if i = 0 then rel0 else false))

/-- The matching full active map: note 36+i ↦ voice i. -/
def polyActive : List (ℕ × ℕ) :=
  (List.range 24).map (fun i => (36 + i, i))

/-- A saturated engine whose oldest voice is already released iff `rel0`. -/
def polyState (rel0 : Bool) : EngineState :=
  { initialState with
    initialized := true
    ctxTime := 100
    nowMs := 100000
    arena := polyArena rel0
    active := polyActive
    nextTimerId := 48 }

theorem claim_C10_witness :
    ((playNote (polyState true) 60 (4/5)).logs.drop
        (polyState true).logs.length).map (fun e => (e.event, e.midiNote)) =
      [(LogEvent.voiceSteal, some 36), (LogEvent.noteOn, some 60)] ∧
    (playNote (polyState true) 60 (4/5)).arena[0]? = some (testVoice 36 0 true) ∧
    (playNote (polyState true) 60 (4/5)).active.length = (polyState true).active.length + 1 :=
  claim_C10_steal_counts_released (polyState true) 60 (4/5) 36 0 0 (testVoice 36 0 true)
    (by decide) (by decide) (by decide) (by decide) (by decide) rfl rfl (by decide)

theorem addLog_logs_push (s : EngineState) (ev : LogEvent) (mn mc : Option ℕ)
    (hinit : s.initialized = true) (hlen : s.logs.length < 1000) :
    (addLog s ev mn mc).logs = s.logs ++ [newLogEntry s ev mn mc] := by
  rw [addLog_push s ev mn mc hinit hlen]

theorem releaseVoice_logs_push (s : EngineState) (n vid : ℕ) (v : Voice)
    (hv : s.arena[vid]? = some v) (hinit : s.initialized = true) (hrel : v.released = false)
    (hlen : s.logs.length < 1000) :
    (releaseVoice s n vid).logs =
      s.logs ++ [newLogEntry { s with arena := s.arena.set vid { v with released := true } }
        LogEvent.voiceRelease (some n) none] := by
  rw [releaseVoice_eq s n vid v hv hinit hrel]
  dsimp only
  rw [addLog_logs_push { s with arena := s.arena.set vid { v with released := true } }
    LogEvent.voiceRelease (some n) none hinit hlen]

/-! ### Claim C1: voice stealing at the polyphony ceiling -/

/-- C1 (amended): with the map holding exactly `MAX_POLYPHONY` entries (its
oldest voice not yet released), playing a fresh note steals the voice with
the smallest `startTime`: exactly one VOICE_STEAL entry is logged for it and
it is forced into release before the new voice is created (log order
VOICE_STEAL, VOICE_RELEASE, NOTE_ON); but the stolen voice's map entry is
not removed until its cleanup timer fires, so the active-voice count rises
to `MAX_POLYPHONY + 1` rather than staying at 24. -/
theorem claim_C1_voice_steal (s : EngineState) (n : ℕ) (vel : ℚ)
    (n0 vid0 : ℕ) (t0 : ℚ) (v0 : Voice)
    (hw : Wf s)
    (hinit : s.initialized = true)
    (hfresh : lookupA s.active n = none)
    (hlen : s.active.length = MAX_POLYPHONY)
    (hold : oldestEntry s = some (n0, t0))
    (holdv : lookupA s.active n0 = some vid0)
    (hv0 : s.arena[vid0]? = some v0)
    (hrel : v0.released = false)
    (hlogs : s.logs.length ≤ 997) :
    (∀ pr ∈ s.active, ∀ v, s.arena[pr.2]? = some v → t0 ≤ v.startTime) ∧
    ((playNote s n vel).logs.drop s.logs.length).map (fun e => (e.event, e.midiNote)) =
      [(LogEvent.voiceSteal, some n0), (LogEvent.voiceRelease, some n0),
       (LogEvent.noteOn, some n)] ∧
    ((playNote s n vel).arena[vid0]?).map Voice.released = some true ∧
    lookupA (playNote s n vel).active n0 = some vid0 ∧
    ((playNote s n vel).arena[s.arena.length]?).map Voice.released = some false ∧
    lookupA (playNote s n vel).active n = some s.arena.length ∧
    (playNote s n vel).active.length = MAX_POLYPHONY + 1 := by
  have hne : n0 ≠ n := by
    intro he
    rw [he, hfresh] at holdv
    exact Option.noConfusion holdv
  obtain ⟨vidm, vm, _, _, _, hmin⟩ := oldestEntry_spec s hw n0 t0 hold
  unfold playNote
  rw [if_neg (show ¬ (s.initialized = false) by rw [hinit]; simp)]
  dsimp only
  rw [hfresh]
  dsimp only
  unfold stealIfNeeded
  rw [if_pos (le_of_eq hlen.symm), hold]
  dsimp only
  rw [holdv]
  dsimp only
  have hlen1 : s.logs.length < 1000 := by omega
  have hinitA : (addLog s LogEvent.voiceSteal (some n0) none).initialized = true := by
    rw [addLog_initialized]
    exact hinit
  have hvA : (addLog s LogEvent.voiceSteal (some n0) none).arena[vid0]? = some v0 := by
    rw [addLog_arena]
    exact hv0
  have hinit2 :
      (releaseVoice (addLog s LogEvent.voiceSteal (some n0) none) n0 vid0).initialized = true := by
    rw [releaseVoice_initialized]
    exact hinitA
  have hs2active :
      (releaseVoice (addLog s LogEvent.voiceSteal (some n0) none) n0 vid0).active = s.active := by
    rw [releaseVoice_active, addLog_active]
  have hs2arlen :
      (releaseVoice (addLog s LogEvent.voiceSteal (some n0) none) n0 vid0).arena.length
        = s.arena.length := by
    rw [releaseVoice_arena_length, addLog_arena]
  have hALlogs : (addLog s LogEvent.voiceSteal (some n0) none).logs
      = s.logs ++ [newLogEntry s LogEvent.voiceSteal (some n0) none] :=
    addLog_logs_push s _ _ _ hinit hlen1
  have hlenA : (addLog s LogEvent.voiceSteal (some n0) none).logs.length < 1000 := by
    rw [hALlogs]
    simp only [List.length_append, List.length_singleton]
    omega
  have hlen2 :
      (releaseVoice (addLog s LogEvent.voiceSteal (some n0) none) n0 vid0).logs.length
        < 1000 := by
    rw [releaseVoice_logs_push (addLog s LogEvent.voiceSteal (some n0) none) n0 vid0 v0
      hvA hinitA hrel hlenA, hALlogs]
    simp only [List.length_append, List.length_singleton]
    omega
  refine ⟨hmin, ?_, ?_, ?_, ?_, ?_, ?_⟩
  · rw [playNoteCore_logs _ n vel (by exact hinit2) (by exact hlen2)]
    rw [releaseVoice_logs_push (addLog s LogEvent.voiceSteal (some n0) none) n0 vid0 v0
      hvA hinitA hrel hlenA, hALlogs]
    simp only [List.append_assoc]
    rw [List.drop_left]
    rfl
  · rw [playNoteCore_arena_old _ n vel vid0
      (by rw [hs2arlen]; exact lt_length_of_getElem? _ _ _ hv0)]
    exact releaseVoice_marks _ n0 vid0 v0 hvA hinitA
  · rw [playNoteCore_active, hs2active, lookupA_setKey_ne _ _ _ _ hne]
    exact holdv
  · have hidx := playNoteCore_arena_new
      (releaseVoice (addLog s LogEvent.voiceSteal (some n0) none) n0 vid0) n vel hinit2
    rw [hs2arlen] at hidx
    rw [hidx]
    rfl
  · rw [playNoteCore_active, lookupA_setKey_self, hs2arlen]
  · rw [playNoteCore_active, hs2active, setKey_of_lookup_none _ _ _ hfresh]
    simp only [List.length_append, List.length_singleton]
    rw [hlen]

/-- C1 (counterexample): a well-formed, fully saturated engine (24 unreleased
voices) on which `playNote` of a 25th distinct note leaves 25 entries in the
active-voice map — the claimed bound "the active count never exceeds 24" is
false, because the stolen voice's map entry survives until its cleanup timer
fires. -/
theorem claim_C1_counterexample :
    Wf (polyState false) ∧
    (polyState false).initialized = true ∧
    (polyState false).active.length = MAX_POLYPHONY ∧
    lookupA (polyState false).active 60 = none ∧
    MAX_POLYPHONY < (playNote (polyState false) 60 (4/5)).active.length := by
  refine ⟨by decide, by decide, by decide, by decide, by decide⟩

theorem claim_C1_witness :
    (playNote (polyState false) 60 (4/5)).active.length = MAX_POLYPHONY + 1 :=
  (claim_C1_voice_steal (polyState false) 60 (4/5) 36 0 0 (testVoice 36 0 false)
    (by decide) (by decide) (by decide) (by decide) (by decide) (by decide)
    rfl rfl (by decide)).2.2.2.2.2.2

theorem setKey_length_some (l : List (ℕ × ℕ)) (n v w : ℕ) (h : lookupA l n = some w) :
    (setKey l n v).length = l.length := by
  induction l with
  | nil => exact Option.noConfusion h
  | cons hd tl ih =>
    obtain ⟨k, u⟩ := hd
    by_cases hk : k = n
    · simp [setKey, hk]
    · unfold lookupA at h
      rw [if_neg hk] at h
      simp [setKey, hk, ih h]

/-! ### Claim C4: at most one unreleased voice per MIDI note -/

/-- C4: (a) every engine operation preserves the state invariant `Wf`; (b) under
`Wf` at most one unreleased voice exists per MIDI note (any two unreleased
arena entries with the same note coincide); (c) retriggering an occupied note
first forces the incumbent voice into its release path — it is already marked
released in the intermediate state reached before the new voice is created —
and only then allocates the new, unreleased voice and points the map entry at
it, leaving the map size unchanged. -/
theorem claim_C4_one_voice_per_note :
    (∀ (s : EngineState) (st : Step), Wf s → Wf (applyStep s st)) ∧
    (∀ s : EngineState, Wf s → ∀ i j : ℕ, ∀ u w : Voice,
      s.arena[i]? = some u → s.arena[j]? = some w →
      u.released = false → w.released = false → u.note = w.note → i = j) ∧
    (∀ (s : EngineState) (n vid : ℕ) (v : Voice) (vel : ℚ),
      s.initialized = true → lookupA s.active n = some vid → s.arena[vid]? = some v →
      s.active.length < MAX_POLYPHONY → s.logs.length ≤ 997 →
      playNote s n vel = playNoteCore (stealIfNeeded (releaseVoice s n vid)) n vel ∧
      ((stealIfNeeded (releaseVoice s n vid)).arena[vid]?).map Voice.released = some true ∧
      (stealIfNeeded (releaseVoice s n vid)).arena.length = s.arena.length ∧
      ((playNote s n vel).arena[vid]?).map Voice.released = some true ∧
      ((playNote s n vel).arena[s.arena.length]?).map Voice.released = some false ∧
      lookupA (playNote s n vel).active n = some s.arena.length ∧
      (playNote s n vel).active.length = s.active.length) := by
  refine ⟨wf_applyStep, ?_, ?_⟩
  · intro s hw i j u w hu hwj hur hwr hnote
    obtain ⟨-, -, hvo, -⟩ := hw
    have hi := (voiceOk_iff s.active s.arena i).1 (hvo i (lt_length_of_getElem? _ _ _ hu))
      u hu hur
    have hj := (voiceOk_iff s.active s.arena j).1 (hvo j (lt_length_of_getElem? _ _ _ hwj))
      w hwj hwr
    rw [hnote, hj] at hi
    injection hi with h
    exact h.symm
  · intro s n vid v vel hinit hv harena hnolim hlogs
    have hs1active : (releaseVoice s n vid).active = s.active := releaseVoice_active s n vid
    have hsteal : stealIfNeeded (releaseVoice s n vid) = releaseVoice s n vid := by
      unfold stealIfNeeded
      rw [if_neg (by rw [hs1active]; exact not_le.mpr hnolim)]
    have hplay : playNote s n vel = playNoteCore (stealIfNeeded (releaseVoice s n vid)) n vel := by
      unfold playNote
      rw [if_neg (show ¬ (s.initialized = false) by rw [hinit]; simp)]
      dsimp only
      rw [hv]
    have hmarks : ((stealIfNeeded (releaseVoice s n vid)).arena[vid]?).map Voice.released
        = some true := by
      rw [hsteal]
      exact releaseVoice_marks s n vid v harena hinit
    have harl : (stealIfNeeded (releaseVoice s n vid)).arena.length = s.arena.length := by
      rw [hsteal, releaseVoice_arena_length]
    have hinit2 : (stealIfNeeded (releaseVoice s n vid)).initialized = true := by
      rw [hsteal, releaseVoice_initialized]
      exact hinit
    refine ⟨hplay, hmarks, harl, ?_, ?_, ?_, ?_⟩
    · rw [hplay, playNoteCore_arena_old _ n vel vid
        (by rw [harl]; exact lt_length_of_getElem? _ _ _ harena)]
      exact hmarks
    · have hidx := playNoteCore_arena_new (stealIfNeeded (releaseVoice s n vid)) n vel hinit2
      rw [harl] at hidx
      rw [hplay, hidx]
      rfl
    · rw [hplay, playNoteCore_active, lookupA_setKey_self, harl]
    · rw [hplay, playNoteCore_active, hsteal, hs1active]
      exact setKey_length_some s.active n _ vid hv

theorem claim_C4_witness :
    ((playNote c5State 60 (4/5)).arena[0]?).map Voice.released = some true ∧
    ((playNote c5State 60 (4/5)).arena[1]?).map Voice.released = some false ∧
    lookupA (playNote c5State 60 (4/5)).active 60 = some 1 ∧
    (playNote c5State 60 (4/5)).active.length = 1 :=
  ⟨(claim_C4_one_voice_per_note.2.2 c5State 60 0 c5Voice (4/5)
      (by decide) (by decide) rfl (by decide) (by decide)).2.2.2.1,
   (claim_C4_one_voice_per_note.2.2 c5State 60 0 c5Voice (4/5)
      (by decide) (by decide) rfl (by decide) (by decide)).2.2.2.2.1,
   (claim_C4_one_voice_per_note.2.2 c5State 60 0 c5Voice (4/5)
      (by decide) (by decide) rfl (by decide) (by decide)).2.2.2.2.2.1,
   (claim_C4_one_voice_per_note.2.2 c5State 60 0 c5Voice (4/5)
      (by decide) (by decide) rfl (by decide) (by decide)).2.2.2.2.2.2⟩

/-! ### Claim C8: oscillator bank construction -/

/-- The fundamental computed at line 454:
`440 * Math.pow(2, (midiNote - 69) / 12)`. -/
noncomputable def midiToFrequency (m : ℤ) : ℝ :=
  440 * (2 : ℝ) ^ (((m : ℝ) - 69) / 12)

/-- What `playNote`'s harmonics loop (lines 535-570) configures for one created
oscillator: the 0-based harmonic index, `osc.frequency.value`,
`harmonicGain.gain.value` and `osc.detune.value`. -/
structure OscSpec where
  harmonicIndex : ℕ
  freq : ℚ
  gain : ℚ
  detune : ℚ
deriving DecidableEq

/-- The harmonics loop (lines 535-570) over the tail of the harmonics list:
`i` is the current 0-based index, `k` counts the `Math.random()` draws already
consumed (one per created oscillator; the two `return`s skip the draw).  The
loop skips amplitudes `≤ 0` and harmonics above the Nyquist frequency
`halfSR`; a created oscillator gets frequency `fund * (i+1)`, gain
`a * 0.85^i * 0.3` and detune `(rand k - 0.5) * spread`.  The fundamental is
irrational in general; the loop's arithmetic is uniform in it, so it is a
parameter here. -/
def buildOscsAux (fund halfSR spread : ℚ) (rand : ℕ → ℚ) :
    List ℚ → ℕ → ℕ → List OscSpec
  | [], _, _ => []
  | a :: rest, i, k =>
    if a ≤ 0 then buildOscsAux fund halfSR spread rand rest (i + 1) k
    else if halfSR < fund * ((i : ℚ) + 1) then
      buildOscsAux fund halfSR spread rand rest (i + 1) k
    else
      { harmonicIndex := i
        freq := fund * ((i : ℚ) + 1)
        gain := a * (17/20) ^ i * (3/10)
        detune := (rand k - 1/2) * spread } ::
      buildOscsAux fund halfSR spread rand rest (i + 1) (k + 1)

/-- The oscillator bank `preset.harmonics.forEach` builds. -/
def buildOscs (p : InstrumentPreset) (fund halfSR : ℚ) (rand : ℕ → ℚ) : List OscSpec :=
  buildOscsAux fund halfSR p.detuneSpread rand p.harmonics 0 0

theorem buildOscsAux_sound (fund halfSR spread : ℚ) (rand : ℕ → ℚ) :
    ∀ (l : List ℚ) (i k : ℕ), ∀ o ∈ buildOscsAux fund halfSR spread rand l i k,
      ∃ j a, l[j]? = some a ∧ o.harmonicIndex = i + j ∧ 0 < a ∧
        o.freq = fund * ((o.harmonicIndex : ℚ) + 1) ∧ o.freq ≤ halfSR ∧
        o.gain = a * (17/20) ^ o.harmonicIndex * (3/10) ∧
        ∃ k2, o.detune = (rand k2 - 1/2) * spread := by
  intro l
  induction l with
  | nil =>
    intro i k o ho
    exact absurd ho (by simp [buildOscsAux])
  | cons a rest ih =>
    intro i k o ho
    unfold buildOscsAux at ho
    by_cases ha : a ≤ 0
    · rw [if_pos ha] at ho
      obtain ⟨j, b, hj, hidx, hrest⟩ := ih (i + 1) k o ho
      exact ⟨j + 1, b, by simpa using hj, by omega, hrest⟩
    · rw [if_neg ha] at ho
      by_cases hf : halfSR < fund * ((i : ℚ) + 1)
      · rw [if_pos hf] at ho
        obtain ⟨j, b, hj, hidx, hrest⟩ := ih (i + 1) k o ho
        exact ⟨j + 1, b, by simpa using hj, by omega, hrest⟩
      · rw [if_neg hf] at ho
        rcases List.mem_cons.1 ho with he | ht
        · subst he
          exact ⟨0, a, by simp, by simp, not_le.1 ha, rfl, not_lt.1 hf, rfl, k, rfl⟩
        · obtain ⟨j, b, hj, hidx, hrest⟩ := ih (i + 1) (k + 1) o ht
          exact ⟨j + 1, b, by simpa using hj, by omega, hrest⟩

theorem buildOscsAux_complete (fund halfSR spread : ℚ) (rand : ℕ → ℚ) :
    ∀ (l : List ℚ) (i k j : ℕ) (a : ℚ), l[j]? = some a → 0 < a →
      fund * (((i + j : ℕ) : ℚ) + 1) ≤ halfSR →
      ∃ o ∈ buildOscsAux fund halfSR spread rand l i k, o.harmonicIndex = i + j := by
  intro l
  induction l with
  | nil =>
    intro i k j a hj
    exact absurd hj (by simp)
  | cons b rest ih =>
    intro i k j a hj hpos hle
    cases j with
    | zero =>
      simp only [List.getElem?_cons_zero, Option.some.injEq] at hj
      have ha : ¬ (b ≤ 0) := by
        rw [hj]
        exact not_le.2 hpos
      have hfreq : ¬ (halfSR < fund * ((i : ℚ) + 1)) := by
        rw [not_lt]
        simpa using hle
      refine ⟨{ harmonicIndex := i, freq := fund * ((i : ℚ) + 1),
                gain := b * (17/20) ^ i * (3/10),
                detune := (rand k - 1/2) * spread }, ?_, ?_⟩
      · unfold buildOscsAux
        rw [if_neg ha, if_neg hfreq]
        exact List.mem_cons_self _ _
      · simp
    | succ j2 =>
      simp only [List.getElem?_cons_succ] at hj
      have hle2 : fund * ((((i + 1) + j2 : ℕ) : ℚ) + 1) ≤ halfSR := by
        have he : (i + 1) + j2 = i + (j2 + 1) := by omega
        rw [he]
        exact hle
      unfold buildOscsAux
      by_cases hb : b ≤ 0
      · rw [if_pos hb]
        obtain ⟨o, ho, hidx⟩ := ih (i + 1) k j2 a hj hpos hle2
        exact ⟨o, ho, by omega⟩
      · rw [if_neg hb]
        by_cases hf : halfSR < fund * ((i : ℚ) + 1)
        · rw [if_pos hf]
          obtain ⟨o, ho, hidx⟩ := ih (i + 1) k j2 a hj hpos hle2
          exact ⟨o, ho, by omega⟩
        · rw [if_neg hf]
          obtain ⟨o, ho, hidx⟩ := ih (i + 1) (k + 1) j2 a hj hpos hle2
          exact ⟨o, List.mem_cons_of_mem _ ho, by omega⟩

theorem buildOscsAux_idx_ge (fund halfSR spread : ℚ) (rand : ℕ → ℚ)
    (l : List ℚ) (i k : ℕ) :
    ∀ o ∈ buildOscsAux fund halfSR spread rand l i k, i ≤ o.harmonicIndex := by
  intro o ho
  obtain ⟨j, b, _, hidx, _⟩ := buildOscsAux_sound fund halfSR spread rand l i k o ho
  omega

theorem buildOscsAux_pairwise (fund halfSR spread : ℚ) (rand : ℕ → ℚ) :
    ∀ (l : List ℚ) (i k : ℕ),
      (buildOscsAux fund halfSR spread rand l i k).Pairwise
        (fun o1 o2 => o1.harmonicIndex < o2.harmonicIndex) := by
  intro l
  induction l with
  | nil =>
    intro i k
    simp [buildOscsAux]
  | cons a rest ih =>
    intro i k
    unfold buildOscsAux
    by_cases ha : a ≤ 0
    · rw [if_pos ha]
      exact ih (i + 1) k
    · rw [if_neg ha]
      by_cases hf : halfSR < fund * ((i : ℚ) + 1)
      · rw [if_pos hf]
        exact ih (i + 1) k
      · rw [if_neg hf]
        refine List.Pairwise.cons ?_ (ih (i + 1) (k + 1))
        intro o ho
        have h2 := buildOscsAux_idx_ge fund halfSR spread rand rest (i + 1) (k + 1) o ho
        show i < o.harmonicIndex
        omega

/-- C8: the fundamental is `440 · 2^((m−69)/12)` Hz (so A4 = 440 Hz and each
octave doubles); the harmonics loop creates exactly one oscillator per 0-based
index `i` whose amplitude `a` is positive and whose frequency
`fundamental · (i+1)` does not exceed the Nyquist frequency, with gain
`a · 0.85^i · 0.3` and a detune of `(rand − 0.5) · detuneSpread` cents fixed
at creation, hence within `[−detuneSpread/2, +detuneSpread/2]` when the draws
lie in `[0, 1)`. -/
theorem claim_C8_oscillator_bank :
    (∀ m : ℤ, midiToFrequency m = 440 * (2 : ℝ) ^ (((m : ℝ) - 69) / 12)) ∧
    midiToFrequency 69 = 440 ∧
    (∀ m : ℤ, midiToFrequency (m + 12) = 2 * midiToFrequency m) ∧
    (∀ (p : InstrumentPreset) (fund halfSR : ℚ) (rand : ℕ → ℚ),
      (∀ o ∈ buildOscs p fund halfSR rand,
        ∃ a, p.harmonics[o.harmonicIndex]? = some a ∧ 0 < a ∧
          o.freq = fund * ((o.harmonicIndex : ℚ) + 1) ∧ o.freq ≤ halfSR ∧
          o.gain = a * (17/20) ^ o.harmonicIndex * (3/10) ∧
          ∃ k, o.detune = (rand k - 1/2) * p.detuneSpread) ∧
      (∀ (j : ℕ) (a : ℚ), p.harmonics[j]? = some a → 0 < a →
        fund * ((j : ℚ) + 1) ≤ halfSR →
        ∃ o ∈ buildOscs p fund halfSR rand, o.harmonicIndex = j) ∧
      (buildOscs p fund halfSR rand).Pairwise
        (fun o1 o2 => o1.harmonicIndex < o2.harmonicIndex)) ∧
    (∀ (p : InstrumentPreset) (fund halfSR : ℚ) (rand : ℕ → ℚ),
      (∀ k, 0 ≤ rand k ∧ rand k < 1) → 0 ≤ p.detuneSpread →
      ∀ o ∈ buildOscs p fund halfSR rand,
        -(p.detuneSpread / 2) ≤ o.detune ∧ o.detune ≤ p.detuneSpread / 2) := by
  refine ⟨fun _ => rfl, ?_, ?_, ?_, ?_⟩
  · unfold midiToFrequency
    rw [show (((69 : ℤ) : ℝ) - 69) / 12 = 0 by norm_num, Real.rpow_zero, mul_one]
  · intro m
    unfold midiToFrequency
    have hexp : (((m + 12 : ℤ) : ℝ) - 69) / 12 = ((m : ℝ) - 69) / 12 + 1 := by
      push_cast
      ring
    rw [hexp, Real.rpow_add (by norm_num : (0:ℝ) < 2), Real.rpow_one]
    ring
  · intro p fund halfSR rand
    refine ⟨?_, ?_, buildOscsAux_pairwise fund halfSR p.detuneSpread rand p.harmonics 0 0⟩
    · intro o ho
      obtain ⟨j, a, hj, hidx, hpos, hrest⟩ :=
        buildOscsAux_sound fund halfSR p.detuneSpread rand p.harmonics 0 0 o ho
      rw [Nat.zero_add] at hidx
      rw [← hidx] at hj
      exact ⟨a, hj, hpos, hrest⟩
    · intro j a hj hpos hle
      have := buildOscsAux_complete fund halfSR p.detuneSpread rand p.harmonics 0 0 j a
        hj hpos (by simpa using hle)
      simpa using this
  · intro p fund halfSR rand hr hs o ho
    obtain ⟨j, a, hj, hidx, hpos, hfr, hle, hg, k, hd⟩ :=
      buildOscsAux_sound fund halfSR p.detuneSpread rand p.harmonics 0 0 o ho
    obtain ⟨hr0, hr1⟩ := hr k
    rw [hd]
    constructor
    · nlinarith
    · nlinarith

theorem claim_C8_witness :
    midiToFrequency 69 = 440 ∧ midiToFrequency (69 + 12) = 2 * midiToFrequency 69 :=
  ⟨claim_C8_oscillator_bank.2.1, claim_C8_oscillator_bank.2.2.1 69⟩
